import Mathlib

/-!
Verification development for the tails stack-VM / compiler toolkit.

The development shallowly embeds, from the C++ sources:
  * the threaded-code VM dispatch semantics of `core_words.cc`
    (stack primitives, `BRANCH`, `0BRANCH`, literals, `RETURN`),
  * the `Word` model and equality of `word.hh`,
  * the compiler of `compiler.cc` (`Compiler::add`, `pushBranch`/
    `popBranch`/`fixBranch`/`addBranchBackTo`/`addRecurse`,
    `returnsImmediately`, `generateInstructions` with its dead-code
    elimination, tail-call rewriting, branch-chain collapsing, pc
    assignment and branch-offset emission),
  * the statically defined interpreted words (`INTERP_WORD`).

Values are modelled as integers (the `SIMPLE_VALUE` configuration);
all programs considered here are numeric.  Execution state is a pair
of a program counter (index into the instruction list, one list
element per instruction, the inline parameter stored inside the
element) and a data stack (head = top of stack).  With this unit of
measure the hand-assembled branch offsets of `core_words.cc`
(`ABS`, `MAX`, `MIN`) and the compiler's emission formula
`target.pc - src.pc - 1` are both reproduced exactly.
-/

namespace Tails

/-- Runtime values: the SIMPLE_VALUE configuration, a number.  The C++
`Value` is a double; every program studied here computes on integers,
where double arithmetic is exact. -/
abbrev V := Int

/-- Truthiness of a Value: `operator!` on a numeric Value is true
exactly for zero, so a value is truthy iff it is nonzero. -/
def truthy (v : V) : Bool := v != 0

/-- Parameterless native stack/arithmetic words of `core_words.cc`. -/
inductive Prim where
  | dup | drop | swap | over | rot | nop
  | zero | one
  | plus | minus | mult
  | lt | gt | ltz
  deriving DecidableEq, Repr

/-- One instruction of the emitted threaded code.  Each instruction is
one list element; an inline parameter (branch offset, literal, callee)
is stored inside the element, matching the `Instruction` union cells of
`instruction.hh` up to the change of program-counter unit explained in
the header comment. -/
inductive Instr where
  | prim (p : Prim)
  | int (n : Int)            -- `_INT` : 16-bit immediate
  | lit (v : V)              -- `_LITERAL` : boxed Value
  | branch (off : Int)       -- `_BRANCH`
  | zbranch (off : Int)      -- `_ZBRANCH` (Forth name `0BRANCH`)
  | recurse (off : Int)      -- `_RECURSE` surviving to runtime
  | getarg (k : Int)         -- `_GETARG`
  | setarg (k : Int)         -- `_SETARG`
  | locals (n : Int)         -- `_LOCALS`
  | dropargs (l r : Nat)     -- `_DROPARGS` packed pair
  | call (body : List Instr) -- call of an interpreted word
  | ret                      -- `_RETURN`

/-- Boolean discriminator for `_RETURN` instructions. -/
def Instr.isRet : Instr → Bool
  | .ret => true
  | _ => false

/-- Effect of a parameterless native word on the data stack (head =
top).  Transcribed from the handler bodies in `core_words.cc`; `none`
models the undefined behaviour of running a handler on a too-short
stack (statically prevented in the real system by the stack checker). -/
def primStep : Prim → List V → Option (List V)
  | .dup, a :: r => some (a :: a :: r)
  | .drop, _ :: r => some r
  | .swap, a :: b :: r => some (b :: a :: r)
  | .over, b :: a :: r => some (a :: b :: a :: r)
  | .rot, c :: b :: a :: r => some (a :: c :: b :: r)
  | .nop, r => some r
  | .zero, r => some ((0 : Int) :: r)
  | .one, r => some ((1 : Int) :: r)
  | .plus, b :: a :: r => some ((a + b) :: r)
  | .minus, b :: a :: r => some ((a - b) :: r)
  | .mult, b :: a :: r => some ((a * b) :: r)
  | .lt, b :: a :: r => some ((if a < b then (1 : Int) else 0) :: r)
  | .gt, b :: a :: r => some ((if a > b then (1 : Int) else 0) :: r)
  | .ltz, a :: r => some ((if a < 0 then (1 : Int) else 0) :: r)
  | _, _ => none

/-- The threaded-code interpreter.  `exec fuel prog pc stack` runs the
instruction at index `pc`:

  * `_RETURN` returns the stack to the caller;
  * a parameterless native word applies `primStep` and falls through
    (the `NEXT()` idiom);
  * `_INT` / `_LITERAL` push the inline parameter;
  * `_BRANCH off` continues at `pc + off + 1`
    (handler: `pc += pc->offset + 1`);
  * `_ZBRANCH off` pops the top of stack (the handler's `*sp--` always
    pops) and continues at `pc + off + 1` when it was falsy, at
    `pc + 1` when truthy (handler: `if (!(*sp--)) pc += pc->offset; ++pc`);
  * `CALL` of an interpreted word runs the callee's instructions on the
    same stack and continues after it (the host-call-stack return
    stack);
  * the local-frame words (`_GETARG` &c.) and a runtime `_RECURSE` are
    not modelled (their handlers live in headers absent from `src/`);
    no claim runs them.

`none` means fuel exhaustion or undefined behaviour. -/
def exec : Nat → List Instr → Nat → List V → Option (List V)
  | 0, _, _, _ => none
  | f + 1, prog, pc, st =>
    match prog.get? pc with
    | none => none
    | some i =>
      match i with
      | .ret => some st
      | .prim p =>
        match primStep p st with
        | some st2 => exec f prog (pc + 1) st2
        | none => none
      | .int n => exec f prog (pc + 1) ((n : Int) :: st)
      | .lit v => exec f prog (pc + 1) (v :: st)
      | .branch off =>
        let t : Int := (pc : Int) + off + 1
        if t < 0 then none else exec f prog t.toNat st
      | .zbranch off =>
        match st with
        | [] => none
        | v :: r =>
          if truthy v then exec f prog (pc + 1) r
          else
            let t : Int := (pc : Int) + off + 1
            if t < 0 then none else exec f prog t.toNat r
      | .call body =>
        match exec f body 0 st with
        | some st2 => exec f prog (pc + 1) st2
        | none => none
      | .recurse _ => none
      | .getarg _ => none
      | .setarg _ => none
      | .locals _ => none
      | .dropargs _ _ => none

/-- Instruction streams of the statically defined interpreted words of
`core_words.cc` (the `INTERP_WORD` macro of `word.hh` appends the
trailing `_RETURN`).  `SQUARE` is `DUP MULT`. -/
def iSQUARE : List Instr := [.prim .dup, .prim .mult, .ret]

/-- Instruction stream of `ABS`: `DUP 0< 0BRANCH+3 0 SWAP -`. -/
def iABS : List Instr :=
  [.prim .dup, .prim .ltz, .zbranch 3, .prim .zero, .prim .swap,
   .prim .minus, .ret]

/-- Instruction stream of `MAX`: `OVER OVER < 0BRANCH+1 SWAP DROP`. -/
def iMAX : List Instr :=
  [.prim .over, .prim .over, .prim .lt, .zbranch 1, .prim .swap,
   .prim .drop, .ret]

/-- Instruction stream of `MIN`: `OVER OVER > 0BRANCH+1 SWAP DROP`. -/
def iMIN : List Instr :=
  [.prim .over, .prim .over, .prim .gt, .zbranch 1, .prim .swap,
   .prim .drop, .ret]

/-! ### The Word model of `word.hh` (for claim C10)

A `Word`'s `_instr` member is a union holding either a native handler
pointer or a pointer to an instruction buffer; `operator==` compares
the `.native` member, i.e. the raw bit pattern of that union.  We model
the union by its bit pattern (a natural number standing for the stored
address). -/

/-- The `Instruction` union of `instruction.hh` as seen by
`operator==(Word, Word)`: only its raw bit pattern (`.native`) is
observable there. -/
structure Instruction where
  native : Nat
  deriving DecidableEq

/-- The `Word` class of `word.hh`: instruction, name, declared stack
effect (inputs/outputs), flag bits. -/
structure Word where
  instr : Instruction
  wname : String
  effIns : Nat
  effOuts : Nat
  flags : Nat
  deriving DecidableEq

/-- Accessor mirroring `Word::instruction()`. -/
def Word.instruction (w : Word) : Instruction := w.instr

/-- The equality of `word.hh`:
`operator==(a, b) = (a.instruction().native == b.instruction().native)`. -/
def wordEq (a b : Word) : Bool := a.instruction.native == b.instruction.native

/-! ### The compiler of `compiler.cc` -/

/-- Identity of a `Word` as the compiler distinguishes them (pointer
comparisons against `&_BRANCH`, `&_RECURSE`, `&_RETURN`, `&NOP`,
`&_LOCALS` in `compiler.cc`), together with what the assembler emits
for it. -/
inductive WTag where
  | primW (p : Prim)
  | intW | litW | branchW | zbranchW | recurseW | returnW | nopW
  | getargW | setargW | localsW | dropargsW
  | interpW
  deriving DecidableEq

/-- A word as referenced by the compiler: name, kind, the flags the
compiler consults (`Magic`, `Inline`, `Native`), and — for interpreted
words — the instruction stream of the body. -/
structure CoreWord where
  name : String
  kind : WTag
  magic : Bool
  inl : Bool
  native : Bool
  body : List Instr

/-- Inline parameter of a `Compiler::WordRef` (the `AfterInstruction`
union): nothing, an integer offset, a Value literal, or the packed
`_DROPARGS` pair. -/
inductive Param where
  | pnone
  | off (n : Int)
  | val (v : V)
  | dropP (l r : Nat)

/-- A `SourceWord` entry of the compiler's word list: word reference,
parameter, logical branch target (the id of another entry),
`isBranchDestination` flag, and the pc assigned during pass 1. -/
structure SW where
  word : CoreWord
  param : Param
  branchTo : Option Nat
  isDest : Bool
  pc : Nat

/-- Builds a fresh `SourceWord` from a word reference. -/
def mkSW (w : CoreWord) (p : Param) : SW :=
  { word := w, param := p, branchTo := none, isDest := false, pc := 0 }

/-- Helper for native core words. -/
def mkNative (n : String) (k : WTag) (m : Bool) : CoreWord :=
  { name := n, kind := k, magic := m, inl := false, native := true, body := [] }

/-- The core native words, flags transcribed from `core_words.cc`:
`CALL`, `LITERAL`, `BRANCH` and `0BRANCH` carry `Word::Magic`; the
stack and arithmetic words carry no flags; `RETURN` carries none. -/
def wDUP : CoreWord := mkNative "DUP" (.primW .dup) false

def wDROP : CoreWord := mkNative "DROP" (.primW .drop) false

def wSWAP : CoreWord := mkNative "SWAP" (.primW .swap) false

def wOVER : CoreWord := mkNative "OVER" (.primW .over) false

def wROT : CoreWord := mkNative "ROT" (.primW .rot) false

def wNOP : CoreWord := mkNative "NOP" (.primW .nop) false

def wZERO : CoreWord := mkNative "0" (.primW .zero) false

def wONE : CoreWord := mkNative "1" (.primW .one) false

def wPLUS : CoreWord := mkNative "+" (.primW .plus) false

def wMINUS : CoreWord := mkNative "-" (.primW .minus) false

def wMULT : CoreWord := mkNative "*" (.primW .mult) false

def wLT : CoreWord := mkNative "<" (.primW .lt) false

def wGT : CoreWord := mkNative ">" (.primW .gt) false

def wLTZ : CoreWord := mkNative "0<" (.primW .ltz) false

def wRETURN : CoreWord := mkNative "RETURN" .returnW false

def wBRANCH : CoreWord := mkNative "BRANCH" .branchW true

def wZBRANCH : CoreWord := mkNative "0BRANCH" .zbranchW true

def wLITERAL : CoreWord := mkNative "LITERAL" .litW true

/-- Modelled from the spec: the remaining underscore opcodes of
`opcodes.hh` (`_INT`, `_RECURSE`, `_GETARG`, `_SETARG`, `_LOCALS`,
`_DROPARGS`) belong to the newer `core_words` not present under
`src/`; per the spec's Word flags (`Magic` = "low-level; not
user-callable") they are magic. -/
def wINT : CoreWord := mkNative "_INT" .intW true

def wRECURSE : CoreWord := mkNative "_RECURSE" .recurseW true

def wGETARG : CoreWord := mkNative "_GETARG" .getargW true

def wSETARG : CoreWord := mkNative "_SETARG" .setargW true

def wLOCALS : CoreWord := mkNative "_LOCALS" .localsW true

def wDROPARGS : CoreWord := mkNative "_DROPARGS" .dropargsW true

/-- Helper for the statically defined interpreted words. -/
def mkInterp (n : String) (b : List Instr) : CoreWord :=
  { name := n, kind := .interpW, magic := false, inl := false,
    native := false, body := b }

def wSQUARE : CoreWord := mkInterp "SQUARE" iSQUARE

def wABS : CoreWord := mkInterp "ABS" iABS

def wMAX : CoreWord := mkInterp "MAX" iMAX

def wMIN : CoreWord := mkInterp "MIN" iMIN

/-- Native word corresponding to a `Prim` (used when re-assembling a
disassembled instruction in `addInline`). -/
def primWordOf : Prim → CoreWord
  | .dup => wDUP
  | .drop => wDROP
  | .swap => wSWAP
  | .over => wOVER
  | .rot => wROT
  | .nop => wNOP
  | .zero => wZERO
  | .one => wONE
  | .plus => wPLUS
  | .minus => wMINUS
  | .mult => wMULT
  | .lt => wLT
  | .gt => wGT
  | .ltz => wLTZ

/-- A compile error (`compile_error`): its message. -/
structure CErr where
  msg : String
  deriving DecidableEq

/-- The compiler state: the ordered `SourceWord` list (each entry keyed
by a stable id, standing for the stable `std::list` iterator), the
fresh-id counter, the control-flow stack of `(identifier, position)`
pairs, the local-variable count, the `_usesArgs` flag, the declared
input/output counts of the in-progress stack effect, and the word's
name. -/
structure CState where
  words : List (Nat × SW)
  nextId : Nat
  ctrl : List (Char × Nat)
  localsCount : Nat
  usesArgs : Bool
  inputCount : Nat
  outputCount : Nat
  cname : String

/-- The fresh placeholder (`{NOP}`) entry kept at the end of the word
list ("next word to be added"). -/
def placeholder (id : Nat) : Nat × SW := (id, mkSW wNOP .pnone)

/-- `Compiler::Compiler()`: the word list starts as a single `NOP`
placeholder. -/
def initCompiler (n : String) : CState :=
  { words := [placeholder 0], nextId := 1, ctrl := [],
    localsCount := 0, usesArgs := false,
    inputCount := 0, outputCount := 0, cname := n }

/-- Compiler::add(WordRef): overwrite the trailing placeholder with the
new entry — preserving its `isBranchDestination` flag — and push a
fresh placeholder.  Returns the position (id) of the added entry. -/
def addRef (c : CState) (w : CoreWord) (p : Param) : CState × Nat :=
  match c.words.getLast? with
  | some lst =>
    ({ c with
        words := c.words.dropLast ++
          [(lst.1, { mkSW w p with isDest := lst.2.isDest }),
           placeholder c.nextId],
        nextId := c.nextId + 1 },
     lst.1)
  | none => (c, 0)

/-- Marks the entry `id` as a branch destination. -/
def markDest (l : List (Nat × SW)) (id : Nat) : List (Nat × SW) :=
  l.map fun x => if x.1 = id then (x.1, { x.2 with isDest := true }) else x

/-- Sets the logical branch target of entry `src` to entry `dst`. -/
def setBranchTo (l : List (Nat × SW)) (src dst : Nat) : List (Nat × SW) :=
  l.map fun x =>
    if x.1 = src then (x.1, { x.2 with branchTo := some dst }) else x

/-- `SourceWord::branchesTo`: record the target and mark it as a branch
destination. -/
def branchesTo (c : CState) (src dst : Nat) : CState :=
  { c with words := markDest (setBranchTo c.words src dst) dst }

/-- Position `prev(_words.end())`: the id of the trailing placeholder,
which will denote the next word to be added. -/
def lastPos (c : CState) : Nat := (c.words.getLast?).elim 0 (·.1)

/-- Position `_words.begin()`: the id of the first entry. -/
def headPos (c : CState) : Nat := (c.words.head?).elim 0 (·.1)

/-- `Compiler::fixBranch`: point `src` at the next word to be added. -/
def fixBranch (c : CState) (src : Nat) : CState :=
  branchesTo c src (lastPos c)

/-- `Compiler::pushBranch`: add the branch word (if any) and push its
position — otherwise the position of the next word to be added — onto
the control-flow stack. -/
def pushBranch (c : CState) (tag : Char) (w : Option CoreWord) : CState :=
  match w with
  | some wd =>
    let r := addRef c wd (.off (-1))
    { r.1 with ctrl := (tag, r.2) :: r.1.ctrl }
  | none => { c with ctrl := (tag, lastPos c) :: c.ctrl }

/-- `Compiler::popBranch`: pop the control-flow stack, requiring the
identifier to be among `matching`. -/
def popBranch (c : CState) (matching : List Char) :
    Except CErr (CState × Nat) :=
  match c.ctrl with
  | tp :: rest =>
    if tp.1 ∈ matching then .ok ({ c with ctrl := rest }, tp.2)
    else .error ⟨"no matching IF or WHILE"⟩
  | [] => .error ⟨"no matching IF or WHILE"⟩

/-- `Compiler::addBranchBackTo`: add a `_BRANCH` targeting `pos`. -/
def addBranchBackTo (c : CState) (pos : Nat) : CState :=
  let r := addRef c wBRANCH (.off (-1))
  branchesTo r.1 r.2 pos

/-- `Compiler::addRecurse`: add a `_RECURSE` targeting the head of the
word list. -/
def addRecurse (c : CState) : CState :=
  let r := addRef c wRECURSE (.off (-1))
  branchesTo r.1 r.2 (headPos r.1)

/-- `canCastToInt16` on a numeric Value. -/
def canCastToInt16 (n : Int) : Bool := -32768 ≤ n && n ≤ 32767

/-- `Compiler::addLiteral`: choose `_INT` when the value fits in an
int16, else `_LITERAL`. -/
def addLiteral (c : CState) (v : V) : CState × Nat :=
  if canCastToInt16 v then addRef c wINT (.off v)
  else addRef c wLITERAL (.val v)

/-- `Compiler::addGetArg`: records that the word uses its arguments. -/
def addGetArg (c : CState) (k : Int) : CState × Nat :=
  addRef { c with usesArgs := true } wGETARG (.off k)

/-- `Compiler::addSetArg`. -/
def addSetArg (c : CState) (k : Int) : CState × Nat :=
  addRef c wSETARG (.off k)

/-- `Compiler::reserveLocalVariable`: find the `_LOCALS` instruction at
the start, or insert one, and bump its slot count. -/
def reserveLocalVariable (c : CState) : CState × Nat :=
  let n := c.localsCount + 1
  match c.words with
  | w0 :: rest =>
    if w0.2.word.kind = .localsW then
      ({ c with words := (w0.1, { w0.2 with param := .off n }) :: rest,
                localsCount := n }, n)
    else
      ({ c with
          words := (c.nextId, mkSW wLOCALS (.off n)) :: c.words,
          nextId := c.nextId + 1, localsCount := n }, n)
  | [] => (c, n)

/-- Word reference recovered by the `Disassembler` from one emitted
instruction (used by `addInline` when splicing an interpreted word). -/
def instrToRef : Instr → CoreWord × Param
  | .prim p => (primWordOf p, .pnone)
  | .int n => (wINT, .off n)
  | .lit v => (wLITERAL, .val v)
  | .branch o => (wBRANCH, .off o)
  | .zbranch o => (wZBRANCH, .off o)
  | .recurse o => (wRECURSE, .off o)
  | .getarg k => (wGETARG, .off k)
  | .setarg k => (wSETARG, .off k)
  | .locals n => (wLOCALS, .off n)
  | .dropargs l r => (wDROPARGS, .dropP l r)
  | .call b => (mkInterp "" b, .pnone)
  | .ret => (wRETURN, .pnone)

/-- `Compiler::addInline`: a native word is added directly; an
interpreted word's instructions are spliced in, stopping at its
(first) `_RETURN`. -/
def addInline (c : CState) (w : CoreWord) : CState × Nat :=
  if w.native then addRef c w .pnone
  else
    let pos := lastPos c
    let spliced := (w.body.takeWhile (fun i => !i.isRet)).foldl
      (fun acc i => (addRef acc (instrToRef i).1 (instrToRef i).2).1) c
    (spliced, pos)

/-- The parser-facing `Compiler::add(const Word*)`: a `Magic` word is
rejected with a compile error naming it; an `Inline` word is spliced;
any other word is appended (a native word as its opcode, an
interpreted word as a call). -/
def addParserWord (c : CState) (w : CoreWord) :
    Except CErr (CState × Nat) :=
  if w.magic then
    .error ⟨"Special word " ++ w.name ++ " cannot be added by parser"⟩
  else if w.inl then .ok (addInline c w)
  else .ok (addRef c w .pnone)

/-! ### `Compiler::generateInstructions` -/

/-- Looks an entry up by its id (dereferencing a stored
`InstructionPos` iterator). -/
def lookupSW (l : List (Nat × SW)) (id : Nat) : Option SW :=
  (l.find? (fun x => x.1 == id)).map (·.2)

/-- `Compiler::returnsImmediately`: true if this instruction is a
`_RETURN`, or a `_BRANCH` to a `_RETURN` (following branch chains).
The C++ recursion has no bound; the fuel passed by the pass exceeds
the word-list length, which bounds every acyclic chain. -/
def returnsImmediately (l : List (Nat × SW)) : Nat → SW → Bool
  | 0, _ => false
  | f + 1, sw =>
    if sw.word.kind = .branchW then
      match sw.branchTo with
      | some d =>
        match lookupSW l d with
        | some t => returnsImmediately l f t
        | none => false
      | none => false
    else sw.word.kind == .returnW

/-- Branch-chain collapsing (`while ((*dst)->word == &_BRANCH) dst =
(*dst)->branchTo;`): follow chains of branches to the ultimate
destination. -/
def collapseChain (l : List (Nat × SW)) : Nat → Nat → Nat
  | 0, d => d
  | f + 1, d =>
    match lookupSW l d with
    | some t =>
      if t.word.kind = .branchW then
        match t.branchTo with
        | some d2 => collapseChain l f d2
        | none => d
      else d
    | none => d

/-- The `returnsImmediately(next(i))` test made by the pass for a
`_RECURSE` entry: the head of the unprocessed suffix, inspected over
the current list. -/
def recurseReturns (fuel : Nat) (done : List (Nat × SW)) (id : Nat)
    (sw : SW) (rest : List (Nat × SW)) : Bool :=
  match rest.head? with
  | some nx =>
    returnsImmediately (done ++ (id, sw) :: rest) fuel nx.2
  | none => false

/-- Tail-call detection: change `_RECURSE` to `_BRANCH` if it is
followed by `_RETURN`, else set the `Recursive` flag. -/
def recurseRewrite (fuel : Nat) (done : List (Nat × SW)) (id : Nat)
    (sw : SW) (rest : List (Nat × SW)) (recFlag : Bool) : SW × Bool :=
  if sw.word.kind = .recurseW then
    if recurseReturns fuel done id sw rest then
      ({ sw with word := wBRANCH }, recFlag)
    else (sw, true)
  else (sw, recFlag)

/-- Collapse the recorded branch target (if any) along branch
chains. -/
def collapseTarget (fuel : Nat) (done : List (Nat × SW)) (id : Nat)
    (sw1 : SW) (rest : List (Nat × SW)) : SW :=
  match sw1.branchTo with
  | some d =>
    { sw1 with
        branchTo :=
          some (collapseChain (done ++ (id, sw1) :: rest) fuel d) }
  | none => sw1

/-- Processing of one kept entry by the pass (everything except the pc
assignment): the `_RECURSE` tail-call rewrite — using
`returnsImmediately` on the following instruction over the current
list — or the `Recursive` flag, followed by branch-chain collapsing of
the recorded target.  Returns the updated entry and `Recursive`
flag. -/
def pass1Step (fuel : Nat) (done : List (Nat × SW)) (id : Nat)
    (sw : SW) (rest : List (Nat × SW)) (recFlag : Bool) : SW × Bool :=
  let s := recurseRewrite fuel done id sw rest recFlag
  (collapseTarget fuel done id s.1 rest, s.2)

/-- The optimization/pc-assignment pass of `generateInstructions`
(the loop over `_words`).  `elim` enables the dead-code branch
(`true` in the source; `false` gives the pass without dead-code
elimination, for the comparison of claim C7).  State: the processed
prefix (in order), the unprocessed suffix, the `afterBranch` flag and
the accumulated `Recursive` flag.  For each entry: if `afterBranch`
and the entry is not a branch destination, it is erased (when
`elim`); otherwise `pass1Step` runs, the entry's `pc` is set to the
current assembled size (one unit per instruction), and `afterBranch`
is recomputed from the — possibly rewritten — word. -/
def pass1Go (elim : Bool) (fuel : Nat) :
    List (Nat × SW) → List (Nat × SW) → Bool → Bool →
    List (Nat × SW) × Bool
  | done, [], _, recFlag => (done, recFlag)
  | done, (id, sw) :: rest, ab, recFlag =>
    if elim && ab && !sw.isDest then
      pass1Go elim fuel done rest ab recFlag
    else
      let s := pass1Step fuel done id sw rest recFlag
      let sw3 := { s.1 with pc := done.length }
      pass1Go elim fuel (done ++ [(id, sw3)]) rest
        (sw3.word.kind == .branchW) s.2

/-- What the `Assembler` emits for one `SourceWord`. -/
def toInstr (sw : SW) : Instr :=
  match sw.word.kind with
  | .primW p => .prim p
  | .intW => match sw.param with | .off n => .int n | _ => .int 0
  | .litW => match sw.param with | .val v => .lit v | _ => .lit 0
  | .branchW => match sw.param with | .off n => .branch n | _ => .branch 0
  | .zbranchW =>
    match sw.param with | .off n => .zbranch n | _ => .zbranch 0
  | .recurseW =>
    match sw.param with | .off n => .recurse n | _ => .recurse 0
  | .returnW => .ret
  | .nopW => .prim .nop
  | .getargW => match sw.param with | .off n => .getarg n | _ => .getarg 0
  | .setargW => match sw.param with | .off n => .setarg n | _ => .setarg 0
  | .localsW => match sw.param with | .off n => .locals n | _ => .locals 0
  | .dropargsW =>
    match sw.param with | .dropP l r => .dropargs l r | _ => .dropargs 0 0
  | .interpW => .call sw.word.body

/-- The emission pass's branch fixup: now that the destination's pc is
known, fill the inline parameter with the relative jump
`(*i->branchTo)->pc - i->pc - 1`. -/
def fillBranch (all : List (Nat × SW)) (sw : SW) : SW :=
  match sw.branchTo with
  | some d =>
    let tpc : Int := ((lookupSW all d).map (fun t => (t.pc : Int))).getD 0
    { sw with param := .off (tpc - (sw.pc : Int) - 1) }
  | none => sw

/-- The final emission pass: assemble every remaining `SourceWord`,
with branch parameters filled in. -/
def emitInstructions (all : List (Nat × SW)) : List Instr :=
  all.map fun x => toInstr (fillBranch all x.2)

/-- The prologue of `generateInstructions` before the passes: if the
word preserves its args or has locals, append a `_DROPARGS
{args+locals, outputs}` (through `add`, so the placeholder mechanics
apply); then overwrite the trailing placeholder with `_RETURN`.  The
overwrite `_words.back() = {_RETURN}` builds a fresh `SourceWord`, so
it resets the placeholder's `isBranchDestination` flag — modelled
faithfully. -/
def epilogueWords (c : CState) : List (Nat × SW) :=
  let c1 :=
    if c.usesArgs || c.localsCount ≠ 0 then
      let dl := (c.inputCount + c.localsCount) % 256
      let dr := c.outputCount % 256
      if dl > 0 then (addRef c wDROPARGS (.dropP dl dr)).1 else c
    else c
  c1.words.dropLast ++
    (match c1.words.getLast? with
     | some lst => [(lst.1, mkSW wRETURN .pnone)]
     | none => [])

/-- `Compiler::generateInstructions`, parameterized by whether the
dead-code-elimination branch of the pass is enabled (`true` in the
source).  The stack checker (`computeEffect`, in
`compiler+stackcheck.hh`, not under `src/`) only verifies the stack
effect and does not alter the word list, so it is not modelled; its
possible failure is one more compile error before any instruction is
produced. -/
def generateInstructionsWith (elim : Bool) (c : CState) :
    Except CErr (List Instr × Bool) :=
  if c.ctrl ≠ [] then
    .error ⟨"Unfinished IF-ELSE-THEN or BEGIN-WHILE-REPEAT"⟩
  else
    let r := pass1Go elim ((epilogueWords c).length + 2) []
      (epilogueWords c) false false
    .ok (emitInstructions r.1, r.2)

/-- The production `generateInstructions` (dead-code elimination on). -/
def generateInstructions (c : CState) : Except CErr (List Instr × Bool) :=
  generateInstructionsWith true c

/-- A `CompiledWord`: name (upper-cased by the constructor), its owned
instruction stream, and whether the compiler flagged it Recursive. -/
structure CompiledWord where
  cwname : String
  instrs : List Instr
  recursiveF : Bool

/-- The vocabulary: an append-only name → word registry. -/
abbrev Vocabulary := List (String × CompiledWord)

/-- The `CompiledWord` constructor's registration step: a named word is
added to the current vocabulary; an anonymous one is not. -/
def vocabAdd (voc : Vocabulary) (w : CompiledWord) : Vocabulary :=
  if w.cwname = "" then voc else (w.cwname, w) :: voc

/-- `Compiler::finish`, i.e. `CompiledWord(Compiler&&)`: the delegated
constructor runs `generateInstructions()` first; only if it succeeds
does the constructor body register the word in the vocabulary.  The
model returns the resulting vocabulary alongside the outcome. -/
def finish (voc : Vocabulary) (c : CState) :
    Vocabulary × Except CErr CompiledWord :=
  match generateInstructionsWith true c with
  | .error e => (voc, .error e)
  | .ok r =>
    let w : CompiledWord := ⟨c.cname.toUpper, r.1, r.2⟩
    (vocabAdd voc w, .ok w)

/-! ### The postfix (Forth) front end

Modelled from the spec: the postfix parser itself is not among the
source files under `src/` (only its caller `test.cc` is); §4.4 of the
spec fixes its behaviour — numbers become literals, `IF`/`ELSE`/`THEN`
use the control-flow stack with tags `i`/`e` and emit
`_ZBRANCH`/`_BRANCH`, `BEGIN`/`WHILE`/`REPEAT` use tags `b`/`w`
(`BEGIN` records a position, `WHILE` emits `_ZBRANCH`, `REPEAT` emits
the back-branch and fixes the `WHILE` branch), and any other
identifier is looked up in the vocabulary and added through the
parser-facing `Compiler::add`. -/

/-- Whitespace tokenizer (accumulator holds the current token
reversed). -/
def tokenizeGo : List Char → List Char → List String
  | [], acc => if acc.isEmpty then [] else [String.mk acc.reverse]
  | ch :: rest, acc =>
    if ch = ' ' then
      if acc.isEmpty then tokenizeGo rest []
      else String.mk acc.reverse :: tokenizeGo rest []
    else tokenizeGo rest (ch :: acc)

/-- Splits source text into whitespace-separated tokens. -/
def tokenize (s : String) : List String := tokenizeGo s.toList []

/-- Numeric value of a decimal digit. -/
def digitVal (ch : Char) : Option Nat :=
  if '0' ≤ ch ∧ ch ≤ '9' then some (ch.toNat - '0'.toNat) else none

/-- Parses a nonempty all-digit character list. -/
def natFromChars (cs : List Char) : Option Nat :=
  if cs.isEmpty then none
  else
    cs.foldl
      (fun acc ch =>
        match acc, digitVal ch with
        | some n, some d => some (n * 10 + d)
        | _, _ => none)
      (some 0)

/-- Parses an optionally negated integer token. -/
def intFromToken (t : String) : Option Int :=
  match t.toList with
  | '-' :: rest =>
    if rest.isEmpty then none
    else (natFromChars rest).map (fun n => -(n : Int))
  | cs => (natFromChars cs).map (fun n => (n : Int))

/-- The vocabulary visible to the modelled front end: the registered
core words needed by the test programs. -/
def coreVocab (tok : String) : Option CoreWord :=
  if tok = "DUP" then some wDUP
  else if tok = "DROP" then some wDROP
  else if tok = "SWAP" then some wSWAP
  else if tok = "OVER" then some wOVER
  else if tok = "ROT" then some wROT
  else if tok = "+" then some wPLUS
  else if tok = "-" then some wMINUS
  else if tok = "*" then some wMULT
  else if tok = "<" then some wLT
  else if tok = ">" then some wGT
  else if tok = "0<" then some wLTZ
  else if tok = "ABS" then some wABS
  else if tok = "MAX" then some wMAX
  else if tok = "MIN" then some wMIN
  else if tok = "SQUARE" then some wSQUARE
  else none

/-- One step of the postfix parser (spec §4.4). -/
def parseToken (c : CState) (tok : String) : Except CErr CState :=
  match intFromToken tok with
  | some n => .ok (addLiteral c n).1
  | none =>
    if tok = "IF" then .ok (pushBranch c 'i' (some wZBRANCH))
    else if tok = "ELSE" then do
      let r ← popBranch c ['i']
      let c2 := pushBranch r.1 'e' (some wBRANCH)
      .ok (fixBranch c2 r.2)
    else if tok = "THEN" then do
      let r ← popBranch c ['i', 'e']
      .ok (fixBranch r.1 r.2)
    else if tok = "BEGIN" then .ok (pushBranch c 'b' none)
    else if tok = "WHILE" then .ok (pushBranch c 'w' (some wZBRANCH))
    else if tok = "REPEAT" then do
      let rw ← popBranch c ['w']
      let rb ← popBranch rw.1 ['b']
      let c2 := addBranchBackTo rb.1 rb.2
      .ok (fixBranch c2 rw.2)
    else
      match coreVocab tok with
      | some w => (addParserWord c w).map (·.1)
      | none => .error ⟨"Unknown word " ++ tok⟩

/-- Runs the parser over a token list. -/
def parseTokens (c : CState) : List String → Except CErr CState
  | [] => .ok c
  | t :: ts => do parseTokens (← parseToken c t) ts

/-- Parses Forth source into a compiler state. -/
def parseSource (src : String) : Except CErr CState :=
  parseTokens (initCompiler "") (tokenize src)

/-- The whole pipeline of `_runParser` in `test.cc`: parse, `finish()`,
then run the compiled word on an empty stack. -/
def parseAndRun (fuel : Nat) (src : String) :
    Except CErr (Option (List V)) := do
  let c ← parseSource src
  let r ← generateInstructions c
  .ok (exec fuel r.1 0 [])

/-! ### Theorems -/

/-- C1: compiling the Forth source
`1 5 BEGIN DUP WHILE SWAP OVER * SWAP 1 - REPEAT DROP` through the
postfix parser and running the resulting word on an empty stack
terminates (within 300 dispatch steps) and leaves exactly one value,
120 = 5!, on the stack. -/
theorem c1_factorial_parse_compile_run :
    parseAndRun 300 "1 5 BEGIN DUP WHILE SWAP OVER * SWAP 1 - REPEAT DROP" =
      .ok (some [120]) := rfl

/-- C2: at a `_ZBRANCH off` instruction, a falsy top of stack is popped
and execution continues `off + 1` instructions further on (the
handler's `pc += pc->offset` followed by the unconditional `++pc`),
while a truthy top continues at the fall-through instruction.  (The
handler's `*sp--` pops the tested value in both cases.) -/
theorem c2_zbranch_step (prog : List Instr) (off : Int) (pc f : Nat)
    (v : V) (st : List V)
    (hp : prog.get? pc = some (.zbranch off)) :
    (truthy v = false →
      0 ≤ (pc : Int) + off + 1 →
      exec (f + 1) prog pc (v :: st) =
        exec f prog ((pc : Int) + off + 1).toNat st) ∧
    (truthy v = true →
      exec (f + 1) prog pc (v :: st) = exec f prog (pc + 1) st) := by
  rw [List.get?_eq_getElem?] at hp
  constructor
  · intro hv hge
    have hlt : ¬((pc : Int) + off + 1 < 0) := not_lt.mpr hge
    simp [exec, hp, hv, hlt]
  · intro hv
    simp [exec, hp, hv]

/-- Witness for C2 at the `0BRANCH` inside `ABS` (index 2, offset 3):
with 0 on top the branch goes to the `RETURN` at index 6, with 1 on
top it falls through to index 3; the 0 and the 1 are popped. -/
theorem c2_zbranch_step_witness :
    exec 6 iABS 2 ((0 : Int) :: [5]) =
      exec 5 iABS (((2 : Nat) : Int) + 3 + 1).toNat [5] ∧
    exec 6 iABS 2 ((1 : Int) :: [5]) = exec 5 iABS 3 [5] := by
  constructor
  · exact (c2_zbranch_step iABS 3 2 5 0 [5] rfl).1 rfl (by decide)
  · exact (c2_zbranch_step iABS 3 2 5 1 [5] rfl).2 rfl

/-- C10: `operator==` on `Word` compares only `instruction().native`;
names, stack effects and flag bits play no part. -/
theorem c10_word_equality (i1 i2 : Instruction) (n1 n2 : String)
    (a1 b1 a2 b2 f1 f2 : Nat) :
    wordEq ⟨i1, n1, a1, b1, f1⟩ ⟨i2, n2, a2, b2, f2⟩ = true ↔
      i1.native = i2.native := by
  simp [wordEq, Word.instruction]

/-- C9: the parser-facing `Compiler::add(const Word*)` rejects exactly
the `Magic` words, with a compile error naming the word (the thrown
error aborts the compilation unit, so nothing is appended); a
non-magic word is always accepted. -/
theorem c9_magic_word_rejected (c : CState) (w : CoreWord) :
    (w.magic = true →
      addParserWord c w =
        .error ⟨"Special word " ++ w.name ++
          " cannot be added by parser"⟩) ∧
    (w.magic = false → ∃ r, addParserWord c w = .ok r) := by
  constructor
  · intro h
    simp [addParserWord, h]
  · intro h
    simp only [addParserWord, h, Bool.false_eq_true, if_false]
    split
    · exact ⟨_, rfl⟩
    · exact ⟨_, rfl⟩

/-- Witness for C9: `_BRANCH` (a magic word) is rejected by name,
`DUP` (not magic) is accepted. -/
theorem c9_magic_word_rejected_witness :
    addParserWord (initCompiler "") wBRANCH =
      .error ⟨"Special word BRANCH cannot be added by parser"⟩ ∧
    ∃ r, addParserWord (initCompiler "") wDUP = .ok r := by
  constructor
  · exact (c9_magic_word_rejected (initCompiler "") wBRANCH).1 rfl
  · exact (c9_magic_word_rejected (initCompiler "") wDUP).2 rfl

/-- C8: compilation is atomic with respect to the vocabulary — when
`finish()` (the `CompiledWord` constructor) propagates a compile
error, the vocabulary is exactly what it was, because
`generateInstructions()` runs before the constructor body that would
register the word. -/
theorem c8_error_leaves_vocabulary (voc : Vocabulary) (c : CState)
    (e : CErr) (h : (finish voc c).2 = .error e) :
    (finish voc c).1 = voc := by
  unfold finish at h ⊢
  cases hg : generateInstructionsWith true c with
  | error e2 => simp [hg]
  | ok r => rw [hg] at h; simp at h

/-- Compiler state with an unfinished `IF` on the control-flow stack. -/
def cUnfinishedIF : CState :=
  pushBranch (initCompiler "FOO") 'i' (some wZBRANCH)

/-- Witness for C8: an unfinished `IF` raises a compile error at
`finish()` and leaves the (empty) vocabulary untouched. -/
theorem c8_error_leaves_vocabulary_witness :
    (finish [] cUnfinishedIF).1 = [] :=
  c8_error_leaves_vocabulary [] cUnfinishedIF
    ⟨"Unfinished IF-ELSE-THEN or BEGIN-WHILE-REPEAT"⟩ rfl

/-- Looking an id up in a list with distinct keys finds the member
with that key. -/
lemma lookupSW_of_mem_nodup :
    ∀ (l : List (Nat × SW)) (d : Nat) (sw : SW),
      (l.map (·.1)).Nodup → (d, sw) ∈ l → lookupSW l d = some sw := by
  intro l
  induction l with
  | nil => intro d sw _ hm; cases hm
  | cons hd tl ih =>
    intro d sw hnd hm
    rw [List.map_cons, List.nodup_cons] at hnd
    rcases List.mem_cons.mp hm with h | h
    · rw [← h]
      simp [lookupSW, List.find?_cons_of_pos]
    · have hkey : ¬(hd.1 = d) := by
        intro he
        exact hnd.1 (he ▸ List.mem_map.mpr ⟨(d, sw), h, rfl⟩)
      have hstep : lookupSW (hd :: tl) d = lookupSW tl d := by
        unfold lookupSW
        rw [List.find?_cons_of_neg _ (by simp [hkey])]
      rw [hstep]
      exact ih d sw hnd.2 h

/-- Pass 1 assigns each kept entry the pc equal to its index in the
kept list (the scratch assembler adds one code unit per
instruction). -/
lemma pass1Go_pc (elim : Bool) (fuel : Nat) :
    ∀ (rest done : List (Nat × SW)) (ab rf : Bool),
      (∀ k x, done.get? k = some x → x.2.pc = k) →
      ∀ k x, (pass1Go elim fuel done rest ab rf).1.get? k = some x →
        x.2.pc = k := by
  intro rest
  induction rest with
  | nil =>
    intro done ab rf h k x hk
    simp only [pass1Go] at hk
    exact h k x hk
  | cons hd tl ih =>
    intro done ab rf h k x hk
    obtain ⟨id, sw⟩ := hd
    by_cases hc : (elim && ab && !sw.isDest) = true
    · rw [pass1Go, if_pos hc] at hk
      exact ih done ab rf h k x hk
    · rw [pass1Go, if_neg hc] at hk
      refine ih _ _ _ ?_ k x hk
      intro k2 x2 hk2
      rcases lt_trichotomy k2 done.length with hlt | heq | hgt
      · rw [List.get?_append hlt] at hk2
        exact h k2 x2 hk2
      · subst heq
        rw [List.get?_concat_length] at hk2
        cases hk2
        rfl
      · have hge : (done ++
            [(id, { (pass1Step fuel done id sw tl rf).1 with
                      pc := done.length })]).length ≤ k2 := by
          simp only [List.length_append, List.length_cons,
            List.length_nil]
          omega
        rw [List.get?_eq_none.mpr hge] at hk2
        cases hk2

/-- C3: for every branch entry of the pass-1 output whose recorded
target is the entry at index `t`, the emission pass fills the inline
parameter with `target.pc - src.pc - 1 = t - k - 1`, and the
`_BRANCH` handler's `pc += off + 1` therefore continues exactly at the
target's pc. -/
theorem c3_branch_offset_lands_on_target (ws : List (Nat × SW))
    (elim : Bool) (fuel : Nat) (k t d id tid : Nat) (sw tsw : SW)
    (hK : (pass1Go elim fuel [] ws false false).1.get? k = some (id, sw))
    (hkind : sw.word.kind = .branchW)
    (hbt : sw.branchTo = some d)
    (hT : (pass1Go elim fuel [] ws false false).1.get? t =
      some (tid, tsw))
    (htid : tid = d)
    (hnd : (((pass1Go elim fuel [] ws false false).1).map (·.1)).Nodup) :
    (emitInstructions (pass1Go elim fuel [] ws false false).1).get? k =
      some (.branch ((t : Int) - (k : Int) - 1)) ∧
    (k : Int) + ((t : Int) - (k : Int) - 1) + 1 = (t : Int) := by
  have hpc : ∀ j x,
      (pass1Go elim fuel [] ws false false).1.get? j = some x →
        x.2.pc = j :=
    pass1Go_pc elim fuel ws [] false false (by intro j x hj; cases hj)
  have hswpc : sw.pc = k := hpc k (id, sw) hK
  have htpc : tsw.pc = t := hpc t (tid, tsw) hT
  have hmem : (d, tsw) ∈ (pass1Go elim fuel [] ws false false).1 := by
    subst htid
    exact List.get?_mem hT
  have hlook : lookupSW (pass1Go elim fuel [] ws false false).1 d =
      some tsw :=
    lookupSW_of_mem_nodup _ d tsw hnd hmem
  constructor
  · unfold emitInstructions
    rw [List.get?_map, hK]
    simp only [Option.map_some']
    unfold fillBranch
    rw [hbt]
    simp only [hlook, Option.map_some', Option.getD_some]
    unfold toInstr
    rw [hkind]
    simp [hswpc, htpc]
  · ring

/-- A two-entry word list: a branch targeting the final `_RETURN`. -/
def c3demo : List (Nat × SW) :=
  [(0, { mkSW wBRANCH (.off (-1)) with branchTo := some 1 }),
   (1, { mkSW wRETURN .pnone with isDest := true })]

/-- Witness for C3 on `c3demo`: the branch at index 0 is emitted with
offset `1 - 0 - 1 = 0` and lands at index 1. -/
theorem c3_branch_offset_lands_on_target_witness :
    (emitInstructions (pass1Go true 4 [] c3demo false false).1).get? 0 =
      some (.branch ((1 : Int) - (0 : Int) - 1)) ∧
    (0 : Int) + ((1 : Int) - (0 : Int) - 1) + 1 = (1 : Int) :=
  c3_branch_offset_lands_on_target c3demo true 4 0 1 1 0 1 _ _
    rfl rfl rfl rfl rfl (by decide)

/-- C6: at `finish()`, a single `_DROPARGS` with packed parameter
`(declared inputs + locals, declared outputs)` is placed immediately
before the terminating `_RETURN` exactly when the word uses its
arguments or has locals; otherwise only the `_RETURN` replaces the
trailing placeholder.  Hypotheses: the word list ends with its
placeholder entry; `_usesArgs` implies at least one declared input or
local — `addGetArg`'s asserts `stackOffset >= 1 - inputs` and
`stackOffset <= locals` force `1 <= inputs + locals`, whether an
argument or a local is read; the packed byte fields do not
overflow. -/
theorem c6_dropargs_epilogue (c : CState) (front : List (Nat × SW))
    (lid : Nat) (lsw : SW)
    (hw : c.words = front ++ [(lid, lsw)])
    (hargs : c.usesArgs = true → 1 ≤ c.inputCount + c.localsCount)
    (hsz : c.inputCount + c.localsCount < 256)
    (houts : c.outputCount < 256) :
    ((c.usesArgs = true ∨ c.localsCount ≠ 0) →
      epilogueWords c =
        front ++
          [(lid, { mkSW wDROPARGS
                     (.dropP (c.inputCount + c.localsCount)
                        c.outputCount) with isDest := lsw.isDest }),
           (c.nextId, mkSW wRETURN .pnone)]) ∧
    (¬(c.usesArgs = true ∨ c.localsCount ≠ 0) →
      epilogueWords c = front ++ [(lid, mkSW wRETURN .pnone)]) := by
  have hlast : c.words.getLast? = some (lid, lsw) := by
    rw [hw]; exact List.getLast?_concat _
  have hdrop : c.words.dropLast = front := by
    rw [hw]; exact List.dropLast_concat
  constructor
  · intro hcond
    have hcb : (c.usesArgs || decide (c.localsCount ≠ 0)) = true := by
      rcases hcond with h | h
      · simp [h]
      · simp [h]
    have hdl : (c.inputCount + c.localsCount) % 256 =
        c.inputCount + c.localsCount := Nat.mod_eq_of_lt hsz
    have hdr : c.outputCount % 256 = c.outputCount :=
      Nat.mod_eq_of_lt houts
    have hpos2 : 0 < c.inputCount + c.localsCount := by
      rcases hcond with h | h
      · have := hargs h; omega
      · omega
    simp only [epilogueWords, hcb, if_true]
    rw [hdl, hdr, if_pos hpos2]
    simp only [addRef, hlast]
    rw [hdrop]
    simp [placeholder, List.dropLast_concat, List.getLast?_concat,
      ← List.append_assoc]
    rw [List.append_assoc]
    rfl
  · intro hcond
    have hcb : (c.usesArgs || decide (c.localsCount ≠ 0)) = false := by
      push_neg at hcond
      simp [hcond.1, hcond.2]
    simp only [epilogueWords, hcb, Bool.false_eq_true, if_false,
      hlast, hdrop]

/-- Compilation unit that read one declared argument. -/
def cArgsDemo : CState :=
  (addGetArg
    { initCompiler "" with inputCount := 1, outputCount := 1 } 0).1

/-- Witness for C6: a word that used its argument gets
`_DROPARGS (1, 1)` before the `_RETURN`; a plain word gets only the
`_RETURN`. -/
theorem c6_dropargs_epilogue_witness :
    epilogueWords cArgsDemo =
      [(0, mkSW wGETARG (.off 0))] ++
        [(1, { mkSW wDROPARGS (.dropP 1 1) with isDest := false }),
         (2, mkSW wRETURN .pnone)] ∧
    epilogueWords (initCompiler "") = [] ++ [(0, mkSW wRETURN .pnone)] := by
  constructor
  · exact (c6_dropargs_epilogue cArgsDemo [(0, mkSW wGETARG (.off 0))]
      1 (mkSW wNOP .pnone) rfl (fun _ => by decide) (by decide)
      (by decide)).1 (Or.inl rfl)
  · exact (c6_dropargs_epilogue (initCompiler "") [] 0
      (mkSW wNOP .pnone) rfl (fun h => by cases h) (by decide)
      (by decide)).2 (by simp [initCompiler])

/-! ### Claim C4: `_RETURN` placement -/

/-- Tests that an instruction stream ends with a `_RETURN` and
contains no other `_RETURN`. -/
def retExactlyAtEnd (l : List Instr) : Bool :=
  ((l.getLast?).map Instr.isRet).getD false &&
    l.dropLast.all fun i => !i.isRet

/-- A word list whose tail-recursion has no exit path: `DUP` followed
by `_RECURSE` (built through `add` and `addRecurse`). -/
def c4cex : CState := addRecurse (addRef (initCompiler "") wDUP .pnone).1

/-- Counterexample to C4: on `c4cex`, `finish()`'s `generateInstructions`
rewrites the `_RECURSE` to a tail-call `_BRANCH` and then the
dead-code pass erases the final `_RETURN` (unreachable after the
unconditional branch, and no longer marked as a branch destination
because `_words.back() = {_RETURN}` rebuilt the entry).  The emitted
stream is `DUP; BRANCH -2` — it does not end with `_RETURN`, and
contains none at all. -/
theorem c4_return_counterexample :
    generateInstructions c4cex =
      .ok ([.prim .dup, .branch (-2)], false) ∧
    retExactlyAtEnd [.prim .dup, .branch (-2)] = false :=
  ⟨rfl, rfl⟩

/-- The branch-fixup pass does not change which word an entry holds. -/
lemma fillBranch_word (all : List (Nat × SW)) (sw : SW) :
    (fillBranch all sw).word = sw.word := by
  unfold fillBranch
  cases sw.branchTo <;> rfl

/-- Only a `_RETURN` entry assembles to the `_RETURN` instruction. -/
lemma toInstr_eq_ret (sw : SW) (h : toInstr sw = .ret) :
    sw.word.kind = .returnW := by
  cases hk : sw.word.kind <;> cases hp : sw.param <;>
    simp [toInstr, hk, hp] at h ⊢

/-- Branch-target collapsing does not change the entry's word. -/
lemma collapseTarget_word (fuel : Nat) (done : List (Nat × SW))
    (id : Nat) (sw : SW) (rest : List (Nat × SW)) :
    (collapseTarget fuel done id sw rest).word = sw.word := by
  unfold collapseTarget
  cases h : sw.branchTo <;> simp [h]

/-- The word held by a pass-1-processed entry: unchanged, or rewritten
from `_RECURSE` to `_BRANCH`. -/
lemma pass1Step_word (fuel : Nat) (done : List (Nat × SW)) (id : Nat)
    (sw : SW) (rest : List (Nat × SW)) (rf : Bool) :
    (pass1Step fuel done id sw rest rf).1.word = sw.word ∨
    ((pass1Step fuel done id sw rest rf).1.word = wBRANCH ∧
      sw.word.kind = .recurseW) := by
  by_cases hk : sw.word.kind = .recurseW
  · by_cases hri : recurseReturns fuel done id sw rest = true
    · right
      refine ⟨?_, hk⟩
      simp only [pass1Step, recurseRewrite, if_pos hk, if_pos hri]
      rw [collapseTarget_word]
    · left
      simp only [pass1Step, recurseRewrite, if_pos hk, if_neg hri]
      rw [collapseTarget_word]
  · left
    simp only [pass1Step, recurseRewrite, if_neg hk]
    rw [collapseTarget_word]

/-- `pass1Step` never turns an entry into a `_RETURN`. -/
lemma pass1Step_not_ret (fuel : Nat) (done : List (Nat × SW))
    (id : Nat) (sw : SW) (rest : List (Nat × SW)) (rf : Bool)
    (h : sw.word.kind ≠ .returnW) :
    (pass1Step fuel done id sw rest rf).1.word.kind ≠ .returnW := by
  rcases pass1Step_word fuel done id sw rest rf with hw | ⟨hw, _⟩
  · rw [hw]; exact h
  · rw [hw]; simp [wBRANCH, mkNative]

/-- When the entry is not a `_RECURSE`, `pass1Step` keeps its word and
the `Recursive` flag unchanged (only the branch target may be
collapsed). -/
lemma pass1Step_of_not_recurse (fuel : Nat) (done : List (Nat × SW))
    (id : Nat) (sw : SW) (rest : List (Nat × SW)) (rf : Bool)
    (h : sw.word.kind ≠ .recurseW) :
    (pass1Step fuel done id sw rest rf).1.word = sw.word ∧
    (pass1Step fuel done id sw rest rf).2 = rf := by
  constructor
  · simp only [pass1Step, recurseRewrite, if_neg h]
    exact collapseTarget_word _ _ _ _ _
  · simp only [pass1Step, recurseRewrite, if_neg h]

/-- Unfolding of the pass on a kept entry. -/
lemma pass1Go_cons_keep (elim : Bool) (fuel : Nat)
    (done : List (Nat × SW))
    (id : Nat) (sw : SW) (tl : List (Nat × SW)) (ab rf : Bool)
    (h : (elim && ab && !sw.isDest) = false) :
    pass1Go elim fuel done ((id, sw) :: tl) ab rf =
      pass1Go elim fuel
        (done ++ [(id, { (pass1Step fuel done id sw tl rf).1 with
            pc := done.length })])
        tl
        (({ (pass1Step fuel done id sw tl rf).1 with
            pc := done.length }).word.kind == .branchW)
        (pass1Step fuel done id sw tl rf).2 := by
  rw [pass1Go, if_neg (by simp [h])]

/-- Unfolding of the pass on an erased entry. -/
lemma pass1Go_cons_erase (elim : Bool) (fuel : Nat)
    (done : List (Nat × SW))
    (id : Nat) (sw : SW) (tl : List (Nat × SW)) (ab rf : Bool)
    (h : (elim && ab && !sw.isDest) = true) :
    pass1Go elim fuel done ((id, sw) :: tl) ab rf =
      pass1Go elim fuel done tl ab rf := by
  rw [pass1Go, if_pos h]

/-- Through pass 1, an entry holding `_RETURN` can sit only at the very
last position, provided that was true of the input list. -/
lemma pass1Go_ret_only_last (elim : Bool) (fuel : Nat) :
    ∀ (rest done : List (Nat × SW)) (ab rf : Bool),
      (∀ k x, (done ++ rest).get? k = some x →
        x.2.word.kind = .returnW → k + 1 = (done ++ rest).length) →
      ∀ k x, ((pass1Go elim fuel done rest ab rf).1).get? k = some x →
        x.2.word.kind = .returnW →
        k + 1 = ((pass1Go elim fuel done rest ab rf).1).length := by
  intro rest
  induction rest with
  | nil =>
    intro done ab rf h k x hk hret
    simp only [pass1Go] at hk ⊢
    rw [List.append_nil] at h
    exact h k x hk hret
  | cons hd tl ih =>
    intro done ab rf h k x hk hret
    obtain ⟨id, sw⟩ := hd
    by_cases hc : (elim && ab && !sw.isDest) = true
    · rw [pass1Go_cons_erase elim fuel done id sw tl ab rf hc] at hk ⊢
      refine ih done ab rf ?_ k x hk hret
      intro k2 x2 hk2 hret2
      by_cases hlt : k2 < done.length
      · have horig : (done ++ (id, sw) :: tl).get? k2 = some x2 := by
          rw [List.get?_append hlt]
          rw [List.get?_append hlt] at hk2
          exact hk2
        have := h k2 x2 horig hret2
        simp only [List.length_append, List.length_cons] at this
        omega
      · push_neg at hlt
        have htl : (done ++ tl).get? k2 = tl.get? (k2 - done.length) :=
          List.get?_append_right hlt
        have hcons : (done ++ (id, sw) :: tl).get? (k2 + 1) =
            ((id, sw) :: tl).get? (k2 + 1 - done.length) :=
          List.get?_append_right (by omega)
        have horig : (done ++ (id, sw) :: tl).get? (k2 + 1) = some x2 := by
          rw [hcons, show k2 + 1 - done.length =
            (k2 - done.length) + 1 from by omega]
          show tl.get? (k2 - done.length) = some x2
          rw [← htl]
          exact hk2
        have := h (k2 + 1) x2 horig hret2
        simp only [List.length_append, List.length_cons] at this ⊢
        omega
    · rw [pass1Go_cons_keep elim fuel done id sw tl ab rf
        (Bool.eq_false_iff.mpr hc)] at hk ⊢
      refine ih _ _ _ ?_ k x hk hret
      intro k2 x2 hk2 hret2
      have hlen1 : (done ++
          [(id, { (pass1Step fuel done id sw tl rf).1 with
          pc := done.length })]).length = done.length + 1 := by
        simp
      have hlen : ((done ++
          [(id, { (pass1Step fuel done id sw tl rf).1 with
          pc := done.length })]) ++ tl).length =
          (done ++ (id, sw) :: tl).length := by
        simp
      rcases lt_trichotomy k2 done.length with hlt | heq | hgt
      · have horig : (done ++ (id, sw) :: tl).get? k2 = some x2 := by
          rw [List.get?_append hlt]
          rw [List.get?_append (by rw [hlen1]; omega),
            List.get?_append hlt] at hk2
          exact hk2
        rw [hlen]
        exact h k2 x2 horig hret2
      · subst heq
        rw [List.get?_append (by rw [hlen1]; omega),
          List.get?_concat_length] at hk2
        cases hk2
        by_cases hsw : sw.word.kind = .returnW
        · -- the entry already held `_RETURN`, so by the input
          -- invariant it was last (`tl = []`), and it stays last
          have horig : (done ++ (id, sw) :: tl).get? done.length =
              some (id, sw) := by
            rw [List.get?_append_right (le_refl _)]
            simp
          have hl := h done.length (id, sw) horig hsw
          simp only [List.length_append, List.length_cons] at hl
          rw [hlen]
          simp only [List.length_append, List.length_cons]
          omega
        · exact absurd hret2 (pass1Step_not_ret fuel done id sw tl rf hsw)
      · have horig : (done ++ (id, sw) :: tl).get? k2 = some x2 := by
          rw [List.get?_append_right (by omega : done.length ≤ k2),
            show k2 - done.length = (k2 - (done.length + 1)) + 1 from by
              omega]
          show tl.get? (k2 - (done.length + 1)) = some x2
          rw [List.get?_append_right (by rw [hlen1]; omega), hlen1]
            at hk2
          exact hk2
        rw [hlen]
        exact h k2 x2 horig hret2

/-- On a branch-free suffix (no `_BRANCH`, no `_RECURSE`) entered with
`afterBranch = false`, the pass erases nothing and preserves every
entry's word kind pointwise. -/
lemma pass1Go_no_branch (elim : Bool) (fuel : Nat) :
    ∀ (rest done : List (Nat × SW)) (rf : Bool),
      (∀ x ∈ rest, x.2.word.kind ≠ .branchW ∧
        x.2.word.kind ≠ .recurseW) →
      ∃ tail, (pass1Go elim fuel done rest false rf).1 = done ++ tail ∧
        tail.length = rest.length ∧
        (∀ k, (tail.get? k).map (fun y => y.2.word.kind) =
          (rest.get? k).map (fun y => y.2.word.kind)) := by
  intro rest
  induction rest with
  | nil =>
    intro done rf _
    exact ⟨[], by simp [pass1Go], rfl, fun k => rfl⟩
  | cons hd tl ih =>
    intro done rf hnb
    obtain ⟨id, sw⟩ := hd
    have hsw := hnb (id, sw) (List.mem_cons_self _ _)
    have hword := pass1Step_of_not_recurse fuel done id sw tl rf hsw.2
    rw [pass1Go_cons_keep elim fuel done id sw tl false rf (by simp)]
    have hab : (({ (pass1Step fuel done id sw tl rf).1 with
        pc := done.length }).word.kind == .branchW) = false := by
      have : ({ (pass1Step fuel done id sw tl rf).1 with
          pc := done.length }).word = sw.word := hword.1
      rw [this]
      exact beq_eq_false_iff_ne.mpr hsw.1
    rw [hab, hword.2]
    obtain ⟨tail', heq', hlen', hkind'⟩ :=
      ih (done ++ [(id, { (pass1Step fuel done id sw tl rf).1 with
        pc := done.length })]) rf
        (fun x hx => hnb x (List.mem_cons_of_mem _ hx))
    refine ⟨(id, { (pass1Step fuel done id sw tl rf).1 with
      pc := done.length }) :: tail', ?_, ?_, ?_⟩
    · rw [heq']
      simp
    · simp [hlen']
    · intro k
      cases k with
      | zero =>
        simp only [List.get?, Option.map_some']
        show some ((pass1Step fuel done id sw tl rf).1.word.kind) =
          some sw.word.kind
        rw [hword.1]
      | succ k2 => exact hkind' k2

/-- Indexing into `dropLast` agrees with indexing into the list. -/
lemma get?_dropLast_eq {α : Type} :
    ∀ (l : List α) (n : Nat), n + 1 < l.length →
      l.dropLast.get? n = l.get? n := by
  intro l
  induction l with
  | nil => intro n h; simp at h
  | cons a t ih =>
    intro n h
    cases t with
    | nil => simp at h
    | cons b t2 =>
      cases n with
      | zero => rfl
      | succ n2 =>
        have := ih n2 (by simpa using h)
        simpa using this

/-- An `Instr` satisfies `isRet` exactly when it is `_RETURN`. -/
lemma isRet_iff (i : Instr) : i.isRet = true ↔ i = .ret := by
  cases i <;> simp [Instr.isRet]

/-- A `_RETURN` entry assembles to the `_RETURN` instruction. -/
lemma toInstr_of_ret (sw : SW) (h : sw.word.kind = .returnW) :
    toInstr sw = .ret := by
  simp [toInstr, h]

/-- Shape of the word list after epilogue insertion: client entries
(plus possibly one `_DROPARGS`), then the `_RETURN` that replaced the
trailing placeholder. -/
lemma epilogueWords_shape (c : CState) (hne : c.words ≠ []) :
    ∃ E lid2, epilogueWords c = E ++ [(lid2, mkSW wRETURN .pnone)] ∧
      ∀ x ∈ E, (∃ y ∈ c.words, x.2.word.kind = y.2.word.kind) ∨
        x.2.word.kind = .dropargsW := by
  obtain ⟨front, lst, hfl⟩ := (List.eq_nil_or_concat c.words).resolve_left hne
  rw [List.concat_eq_append] at hfl
  have hlast : c.words.getLast? = some lst := by
    rw [hfl]; exact List.getLast?_concat _
  have hdropl : c.words.dropLast = front := by
    rw [hfl]; exact List.dropLast_concat
  have hmemfront : ∀ x ∈ front,
      (∃ y ∈ c.words, x.2.word.kind = y.2.word.kind) ∨
        x.2.word.kind = .dropargsW := by
    intro x hx
    exact Or.inl ⟨x, by rw [hfl]; exact List.mem_append_left _ hx, rfl⟩
  simp only [epilogueWords]
  by_cases hcond : (c.usesArgs || decide (c.localsCount ≠ 0)) = true
  · by_cases hdl : (c.inputCount + c.localsCount) % 256 > 0
    · rw [if_pos hcond, if_pos hdl]
      simp only [addRef, hlast]
      rw [hdropl]
      refine ⟨front ++ [(lst.1,
        { mkSW wDROPARGS (.dropP ((c.inputCount + c.localsCount) % 256)
            (c.outputCount % 256)) with isDest := lst.2.isDest })],
        c.nextId, ?_, ?_⟩
      · rw [show front ++ [(lst.1,
          { mkSW wDROPARGS (.dropP ((c.inputCount + c.localsCount) % 256)
              (c.outputCount % 256)) with isDest := lst.2.isDest }),
          placeholder c.nextId] = (front ++ [(lst.1,
          { mkSW wDROPARGS (.dropP ((c.inputCount + c.localsCount) % 256)
              (c.outputCount % 256)) with isDest := lst.2.isDest })]) ++
          [placeholder c.nextId] from by simp]
        rw [List.dropLast_concat, List.getLast?_concat]
        rfl
      · intro x hx
        rcases List.mem_append.mp hx with hx | hx
        · exact hmemfront x hx
        · rw [List.mem_singleton.mp hx]
          exact Or.inr rfl
    · rw [if_pos hcond, if_neg hdl, hdropl, hlast]
      exact ⟨front, lst.1, rfl, hmemfront⟩
  · rw [if_neg hcond, hdropl, hlast]
    exact ⟨front, lst.1, rfl, hmemfront⟩

/-- Inversion of a successful `generateInstructions`: the control-flow
stack was empty and the output is the emission of the pass-1 result
over the epilogue-extended word list. -/
lemma generate_ok (elim : Bool) (c : CState) (out : List Instr)
    (recf : Bool)
    (h : generateInstructionsWith elim c = .ok (out, recf)) :
    c.ctrl = [] ∧
    out = emitInstructions
      (pass1Go elim ((epilogueWords c).length + 2) []
        (epilogueWords c) false false).1 := by
  by_cases hctrl : c.ctrl = []
  · refine ⟨hctrl, ?_⟩
    simp only [generateInstructionsWith,
      if_neg (not_ne_iff.mpr hctrl)] at h
    simp only [Except.ok.injEq, Prod.mk.injEq] at h
    exact h.1.symm
  · exfalso
    simp only [generateInstructionsWith, if_pos hctrl] at h
    cases h

/-- With an empty word list the epilogue produces nothing.  (The
builder never creates this state; the lemma closes the degenerate case
of the general theorems.) -/
lemma epilogueWords_nil (c : CState) (hwe : c.words = []) :
    epilogueWords c = [] := by
  simp [epilogueWords, addRef, hwe]

/-- C4, amended: every `INTERP_WORD` stream ends with exactly one
`_RETURN` (appearing nowhere else); for a `CompiledWord` produced by
`Compiler::finish` from a word list containing no `_RETURN` entry:
`_RETURN` can appear only as the final instruction, and when the word
list is branch-free (no `_BRANCH`, no `_RECURSE` — in particular
whenever nothing needed dead-code elimination) the stream does end
with exactly one `_RETURN`.  The unamended claim fails because the
dead-code pass may delete the final (unreachable) `_RETURN` after a
tail-recursion rewrite, see `c4_return_counterexample`. -/
theorem c4_return_amended :
    (retExactlyAtEnd iSQUARE = true ∧ retExactlyAtEnd iABS = true ∧
      retExactlyAtEnd iMAX = true ∧ retExactlyAtEnd iMIN = true) ∧
    ∀ c out recf,
      (∀ x ∈ c.words, x.2.word.kind ≠ .returnW) →
      generateInstructions c = .ok (out, recf) →
      (∀ k i, out.get? k = some i → i.isRet = true →
        k + 1 = out.length) ∧
      (c.words ≠ [] →
        (∀ x ∈ c.words, x.2.word.kind ≠ .branchW ∧
          x.2.word.kind ≠ .recurseW) →
        retExactlyAtEnd out = true) := by
  refine ⟨⟨by decide, by decide, by decide, by decide⟩, ?_⟩
  intro c out recf hno hgen
  obtain ⟨hctrl, hout⟩ := generate_ok true c out recf hgen
  by_cases hwe : c.words = []
  · have hepi0 : epilogueWords c = [] := epilogueWords_nil c hwe
    have houtnil : out = [] := by
      rw [hout, hepi0]
      rfl
    constructor
    · intro k i hki _
      rw [houtnil] at hki
      cases k <;> cases hki
    · intro hne _
      exact (hne hwe).elim
  · obtain ⟨E, lid2, hshape, hE⟩ := epilogueWords_shape c hwe
    have hEnoret : ∀ x ∈ E, x.2.word.kind ≠ .returnW := by
      intro x hx
      rcases hE x hx with ⟨y, hy, hk⟩ | hk
      · rw [hk]; exact hno y hy
      · rw [hk]; decide
    have hepilen : (epilogueWords c).length = E.length + 1 := by
      rw [hshape]; simp
    have hinv : ∀ k x, (epilogueWords c).get? k = some x →
        x.2.word.kind = .returnW → k + 1 = (epilogueWords c).length := by
      intro k x hk hret
      rw [hshape] at hk
      rcases lt_trichotomy k E.length with hlt | heq | hgt
      · rw [List.get?_append hlt] at hk
        exact absurd hret (hEnoret x (List.get?_mem hk))
      · rw [hepilen, heq]
      · rw [List.get?_eq_none.mpr (by simp; omega)] at hk
        cases hk
    have hretK : ∀ k x,
        ((pass1Go true ((epilogueWords c).length + 2) []
          (epilogueWords c) false false).1).get? k = some x →
        x.2.word.kind = .returnW →
        k + 1 =
          ((pass1Go true ((epilogueWords c).length + 2) []
            (epilogueWords c) false false).1).length :=
      pass1Go_ret_only_last true ((epilogueWords c).length + 2)
        (epilogueWords c) [] false false hinv
    constructor
    · intro k i hki hiret
      rw [hout] at hki ⊢
      unfold emitInstructions at hki ⊢
      rw [List.get?_map] at hki
      cases hKk : ((pass1Go true ((epilogueWords c).length + 2) []
          (epilogueWords c) false false).1).get? k with
      | none => rw [hKk] at hki; cases hki
      | some x =>
        rw [hKk] at hki
        simp only [Option.map_some', Option.some.injEq] at hki
        have hret : x.2.word.kind = .returnW := by
          have h1 : toInstr (fillBranch
              (pass1Go true ((epilogueWords c).length + 2) []
                (epilogueWords c) false false).1 x.2) = .ret := by
            rw [hki]; exact (isRet_iff i).mp hiret
          have h2 := toInstr_eq_ret _ h1
          rw [fillBranch_word] at h2
          exact h2
        rw [List.length_map]
        exact hretK k x hKk hret
    · intro _ hnb
      have hnbepi : ∀ x ∈ epilogueWords c,
          x.2.word.kind ≠ .branchW ∧ x.2.word.kind ≠ .recurseW := by
        intro x hx
        rw [hshape] at hx
        rcases List.mem_append.mp hx with hx | hx
        · rcases hE x hx with ⟨y, hy, hk⟩ | hk
          · rw [hk]; exact hnb y hy
          · rw [hk]; exact ⟨by decide, by decide⟩
        · rw [List.mem_singleton.mp hx]
          exact ⟨by simp [mkSW, wRETURN, mkNative], by
            simp [mkSW, wRETURN, mkNative]⟩
      obtain ⟨tail, htail, hlen, hkind⟩ :=
        pass1Go_no_branch true ((epilogueWords c).length + 2)
          (epilogueWords c) [] false hnbepi
      have hKtail : (pass1Go true ((epilogueWords c).length + 2) []
          (epilogueWords c) false false).1 = tail := by
        rw [htail]; rfl
      have htaillen : tail.length = E.length + 1 := by
        rw [hlen, hepilen]
      -- the final entry of the pass result holds `_RETURN`
      have hlastkind : ∃ x, tail.get? E.length = some x ∧
          x.2.word.kind = .returnW := by
        have h1 := hkind E.length
        have h2 : (epilogueWords c).get? E.length =
            some (lid2, mkSW wRETURN .pnone) := by
          rw [hshape, List.get?_append_right (le_refl _)]
          simp
        rw [h2] at h1
        cases h3 : tail.get? E.length with
        | none => rw [h3] at h1; cases h1
        | some x =>
          rw [h3] at h1
          simp only [Option.map_some', Option.some.injEq] at h1
          exact ⟨x, rfl, h1⟩
      -- entries before it do not
      have hprekind : ∀ n, n < E.length → ∀ x, tail.get? n = some x →
          x.2.word.kind ≠ .returnW := by
        intro n hn x hx
        have h1 := hkind n
        have h2 : (epilogueWords c).get? n = E.get? n := by
          rw [hshape]; exact List.get?_append hn
        cases h3 : E.get? n with
        | none =>
          rw [List.get?_eq_none] at h3
          omega
        | some e =>
          rw [hx, h2, h3] at h1
          simp only [Option.map_some', Option.some.injEq] at h1
          rw [h1]
          exact hEnoret e (List.get?_mem h3)
      rw [hout, hKtail]
      obtain ⟨xr, hxr, hxrk⟩ := hlastkind
      unfold retExactlyAtEnd
      rw [Bool.and_eq_true]
      constructor
      · -- last emitted instruction is `_RETURN`
        have hlast : (emitInstructions tail).getLast? = some .ret := by
          rw [List.getLast?_eq_getElem?, ← List.get?_eq_getElem?]
          unfold emitInstructions
          rw [List.length_map, htaillen]
          simp only [Nat.add_sub_cancel]
          rw [List.get?_map, hxr]
          simp only [Option.map_some', Option.some.injEq]
          have := toInstr_of_ret (fillBranch tail xr.2)
            (by rw [fillBranch_word]; exact hxrk)
          exact this
        rw [hlast]
        rfl
      · rw [List.all_eq_true]
        intro i hi
        obtain ⟨n, hn⟩ := List.mem_iff_get?.mp hi
        have hnlt : n < (emitInstructions tail).dropLast.length := by
          by_contra hcon
          rw [List.get?_eq_none.mpr (by omega)] at hn
          cases hn
        have hdll : (emitInstructions tail).dropLast.length =
            E.length := by
          rw [List.length_dropLast]
          unfold emitInstructions
          rw [List.length_map, htaillen]
          simp
        have hfull : (emitInstructions tail).get? n = some i := by
          rw [← get?_dropLast_eq]
          · exact hn
          · unfold emitInstructions
            rw [List.length_map, htaillen]
            omega
        unfold emitInstructions at hfull
        rw [List.get?_map] at hfull
        cases hKn : tail.get? n with
        | none => rw [hKn] at hfull; cases hfull
        | some y =>
          rw [hKn] at hfull
          simp only [Option.map_some', Option.some.injEq] at hfull
          have hk2 : y.2.word.kind ≠ .returnW :=
            hprekind n (by omega) y hKn
          cases hi2 : i.isRet
          · rfl
          · exfalso
            apply hk2
            have h1 : toInstr (fillBranch tail y.2) = .ret := by
              rw [hfull]; exact (isRet_iff i).mp hi2
            have h2 := toInstr_eq_ret _ h1
            rw [fillBranch_word] at h2
            exact h2

/-! ### Claim C5: tail-call detection -/

/-- Position (index) of the entry with the given id. -/
def posOf (l : List (Nat × SW)) (id : Nat) : Option Nat :=
  l.findIdx? (fun x => x.1 == id)

/-- The predicate as the claim words it: the entry at position `j`
reaches `_RETURN` by being a `_RETURN` itself or through a chain of
forward `_BRANCH` instructions — each hop landing at a strictly later
position. -/
def forwardReachesReturn (l : List (Nat × SW)) : Nat → Nat → Bool
  | 0, _ => false
  | f + 1, j =>
    match l.get? j with
    | some x =>
      if x.2.word.kind = .returnW then true
      else if x.2.word.kind = .branchW then
        match x.2.branchTo with
        | some d =>
          match posOf l d with
          | some jd => decide (j < jd) && forwardReachesReturn l f jd
          | none => false
        | none => false
      else false
    | none => false

/-- A compilation unit in which the `_RECURSE` reaches `_RETURN` only
through a chain containing a backward `_BRANCH`: entries (by position)
`DUP; 0BRANCH→3; BRANCH→end; RECURSE→head; BRANCH→2; RETURN`. -/
def c5cex : CState :=
  let s1 := (addRef (initCompiler "") wDUP .pnone).1
  let s2r := addRef s1 wZBRANCH (.off (-1))
  let s3r := addRef s2r.1 wBRANCH (.off (-1))
  let s4 := fixBranch s3r.1 s2r.2
  let s5 := addRecurse s4
  let s6 := addBranchBackTo s5 s3r.2
  fixBranch s6 s3r.2

/-- Counterexample to C5 as stated: in `c5cex`'s word list at
`finish()`, position 3 holds a `_RECURSE` whose successor (position 4)
does not reach `_RETURN` through forward branches — position 4 is a
`_BRANCH` back to position 2 — yet `returnsImmediately` (which ignores
branch direction) succeeds, so the pass rewrites the entry to
`_BRANCH` and does not flag the word Recursive, contradicting the
claim's "left as `_RECURSE` and causes the word to be flagged
Recursive". -/
theorem c5_tailcall_counterexample :
    ((epilogueWords c5cex).get? 3).map (fun x => x.2.word.kind) =
      some .recurseW ∧
    forwardReachesReturn (epilogueWords c5cex) 8 4 = false ∧
    (lookupSW (pass1Go true ((epilogueWords c5cex).length + 2) []
        (epilogueWords c5cex) false false).1
        3).map (fun sw => sw.word.kind) = some .branchW ∧
    (pass1Go true ((epilogueWords c5cex).length + 2) []
      (epilogueWords c5cex) false false).2 = false := by
  refine ⟨rfl, rfl, rfl, rfl⟩

/-- Characterization of `pass1Step` on a `_RECURSE` entry. -/
lemma pass1Step_of_recurse (fuel : Nat) (done : List (Nat × SW))
    (id : Nat) (sw : SW) (rest : List (Nat × SW)) (rf : Bool)
    (h : sw.word.kind = .recurseW) :
    (recurseReturns fuel done id sw rest = true →
      (pass1Step fuel done id sw rest rf).1.word = wBRANCH ∧
      (pass1Step fuel done id sw rest rf).2 = rf) ∧
    (recurseReturns fuel done id sw rest = false →
      (pass1Step fuel done id sw rest rf).1.word = sw.word ∧
      (pass1Step fuel done id sw rest rf).2 = true) := by
  constructor
  · intro hri
    constructor
    · simp only [pass1Step, recurseRewrite, if_pos h, if_pos hri]
      exact collapseTarget_word _ _ _ _ _
    · simp only [pass1Step, recurseRewrite, if_pos h, if_pos hri]
  · intro hri
    have hri2 : ¬(recurseReturns fuel done id sw rest = true) := by
      rw [hri]; exact Bool.false_ne_true
    constructor
    · simp only [pass1Step, recurseRewrite, if_pos h, if_neg hri2]
      exact collapseTarget_word _ _ _ _ _
    · simp only [pass1Step, recurseRewrite, if_pos h, if_neg hri2]

/-- `pass1Step` keeps the `Recursive` flag once set. -/
lemma pass1Step_flag_true (fuel : Nat) (done : List (Nat × SW))
    (id : Nat) (sw : SW) (rest : List (Nat × SW)) :
    (pass1Step fuel done id sw rest true).2 = true := by
  by_cases h : sw.word.kind = .recurseW
  · by_cases hri : recurseReturns fuel done id sw rest = true
    · simp only [pass1Step, recurseRewrite, if_pos h, if_pos hri]
    · simp only [pass1Step, recurseRewrite, if_pos h, if_neg hri]
  · simp only [pass1Step, recurseRewrite, if_neg h]

/-- The pass keeps the `Recursive` flag once set. -/
lemma pass1Go_flag_mono (elim : Bool) (fuel : Nat) :
    ∀ (rest done : List (Nat × SW)) (ab : Bool),
      (pass1Go elim fuel done rest ab true).2 = true := by
  intro rest
  induction rest with
  | nil => intro done ab; rfl
  | cons hd tl ih =>
    intro done ab
    obtain ⟨id, sw⟩ := hd
    by_cases hc : (elim && ab && !sw.isDest) = true
    · rw [pass1Go_cons_erase elim fuel done id sw tl ab true hc]
      exact ih done ab
    · rw [pass1Go_cons_keep elim fuel done id sw tl ab true
        (by rw [Bool.eq_false_iff]; exact hc)]
      rw [pass1Step_flag_true fuel done id sw tl]
      exact ih _ _

/-- The processed prefix of the pass only grows, and everything
appended carries an id from the unprocessed suffix. -/
lemma pass1Go_suffix (elim : Bool) (fuel : Nat) :
    ∀ (rest done : List (Nat × SW)) (ab rf : Bool),
      ∃ suffix, (pass1Go elim fuel done rest ab rf).1 = done ++ suffix ∧
        ∀ x ∈ suffix, x.1 ∈ rest.map (·.1) := by
  intro rest
  induction rest with
  | nil =>
    intro done ab rf
    exact ⟨[], by simp [pass1Go], by intro x hx; cases hx⟩
  | cons hd tl ih =>
    intro done ab rf
    obtain ⟨id, sw⟩ := hd
    by_cases hc : (elim && ab && !sw.isDest) = true
    · rw [pass1Go_cons_erase elim fuel done id sw tl ab rf hc]
      obtain ⟨suffix, hs, hm⟩ := ih done ab rf
      exact ⟨suffix, hs, fun x hx =>
        List.mem_cons_of_mem _ (hm x hx)⟩
    · rw [pass1Go_cons_keep elim fuel done id sw tl ab rf
        (by rw [Bool.eq_false_iff]; exact hc)]
      obtain ⟨suffix, hs, hm⟩ := ih
        (done ++ [(id, { (pass1Step fuel done id sw tl rf).1 with
          pc := done.length })]) _ _
      refine ⟨(id, { (pass1Step fuel done id sw tl rf).1 with
        pc := done.length }) :: suffix, ?_, ?_⟩
      · rw [hs]; simp
      · intro x hx
        rcases List.mem_cons.mp hx with hx | hx
        · rw [hx]; exact List.mem_cons_self _ _
        · exact List.mem_cons_of_mem _ (hm x hx)

/-- Lookup in a list whose earlier entries have different keys. -/
lemma lookupSW_middle (pre : List (Nat × SW)) (id : Nat) (sw : SW)
    (suf : List (Nat × SW)) (hpre : ∀ x ∈ pre, x.1 ≠ id) :
    lookupSW (pre ++ (id, sw) :: suf) id = some sw := by
  induction pre with
  | nil =>
    simp [lookupSW, List.find?_cons_of_pos]
  | cons hd tl ih =>
    have hne : hd.1 ≠ id := hpre hd (List.mem_cons_self _ _)
    have hstep : lookupSW ((hd :: tl) ++ (id, sw) :: suf) id =
        lookupSW (tl ++ (id, sw) :: suf) id := by
      unfold lookupSW
      rw [List.cons_append, List.find?_cons_of_neg _ (by simp [hne])]
    rw [hstep]
    exact ih (fun x hx => hpre x (List.mem_cons_of_mem _ hx))

/-- `pass1Step` preserves the recorded branch target of the rewrite
stage: the result's target is the collapse of the input's target. -/
lemma pass1Step_branchTo (fuel : Nat) (done : List (Nat × SW))
    (id : Nat) (sw : SW) (rest : List (Nat × SW)) (rf : Bool) :
    (pass1Step fuel done id sw rest rf).1.branchTo =
      (sw.branchTo).map (fun d =>
        collapseChain
          (done ++ (id, (recurseRewrite fuel done id sw rest rf).1)
            :: rest) fuel d) := by
  have hrw : (recurseRewrite fuel done id sw rest rf).1.branchTo =
      sw.branchTo := by
    unfold recurseRewrite
    by_cases h : sw.word.kind = .recurseW
    · by_cases hri : recurseReturns fuel done id sw rest = true
      · rw [if_pos h, if_pos hri]
      · rw [if_pos h, if_neg hri]
    · rw [if_neg h]
  show (collapseTarget fuel done id
    (recurseRewrite fuel done id sw rest rf).1 rest).branchTo = _
  unfold collapseTarget
  rw [hrw]
  cases hbt : sw.branchTo <;> simp [hbt, hrw]

/-- C5, amended (the "forward" restriction dropped): during the pass,
a kept `_RECURSE` entry is rewritten to `_BRANCH` — aimed at the
target recorded by `addRecurse`, the head of the word, up to branch
chain collapsing — exactly when `returnsImmediately` holds of its
successor, i.e. when the successor reaches `_RETURN` directly or
through a chain of `_BRANCH` instructions of either direction; a kept
`_RECURSE` entry whose successor does not so reach `_RETURN` is left
as `_RECURSE` and causes the word to be flagged Recursive. -/
theorem c5_tailcall_rewrite (elim : Bool) (fuel : Nat)
    (done : List (Nat × SW))
    (id : Nat) (sw : SW) (tl : List (Nat × SW)) (ab rf : Bool)
    (d : Nat)
    (hkept : (elim && ab && !sw.isDest) = false)
    (hkind : sw.word.kind = .recurseW)
    (hbt : sw.branchTo = some d)
    (hnd : ((done ++ (id, sw) :: tl).map (·.1)).Nodup) :
    (recurseReturns fuel done id sw tl = true →
      ∃ sw2,
        lookupSW (pass1Go elim fuel done ((id, sw) :: tl) ab rf).1 id =
          some sw2 ∧ sw2.word.kind = .branchW ∧
          sw2.branchTo = some (collapseChain
            (done ++ (id, { sw with word := wBRANCH }) :: tl) fuel d)) ∧
    (recurseReturns fuel done id sw tl = false →
      (∃ sw2,
        lookupSW (pass1Go elim fuel done ((id, sw) :: tl) ab rf).1 id =
          some sw2 ∧ sw2.word.kind = .recurseW) ∧
      (pass1Go elim fuel done ((id, sw) :: tl) ab rf).2 = true) := by
  have hmap : (done ++ (id, sw) :: tl).map (·.1) =
      done.map (·.1) ++ id :: tl.map (·.1) := by simp
  rw [hmap] at hnd
  have hdisj := (List.nodup_append.mp hnd).2.2
  have hidnot : id ∉ tl.map (·.1) := by
    have h2 := (List.nodup_append.mp hnd).2.1
    exact (List.nodup_cons.mp h2).1
  have hpre : ∀ x ∈ done, x.1 ≠ id := by
    intro x hx he
    exact hdisj (List.mem_map.mpr ⟨x, hx, rfl⟩)
      (he ▸ List.mem_cons_self _ _)
  rw [pass1Go_cons_keep elim fuel done id sw tl ab rf hkept]
  obtain ⟨suffix, hs, hm⟩ := pass1Go_suffix elim fuel tl
    (done ++ [(id, { (pass1Step fuel done id sw tl rf).1 with
      pc := done.length })])
    (({ (pass1Step fuel done id sw tl rf).1 with
      pc := done.length }).word.kind == .branchW)
    (pass1Step fuel done id sw tl rf).2
  have hlook : lookupSW
      (pass1Go elim fuel
        (done ++ [(id, { (pass1Step fuel done id sw tl rf).1 with
          pc := done.length })]) tl
        (({ (pass1Step fuel done id sw tl rf).1 with
          pc := done.length }).word.kind == .branchW)
        (pass1Step fuel done id sw tl rf).2).1 id =
      some { (pass1Step fuel done id sw tl rf).1 with
        pc := done.length } := by
    rw [hs, show (done ++
        [(id, { (pass1Step fuel done id sw tl rf).1 with
        pc := done.length })]) ++ suffix =
        done ++ (id, { (pass1Step fuel done id sw tl rf).1 with
          pc := done.length }) :: suffix from by simp]
    exact lookupSW_middle done id _ suffix hpre
  constructor
  · intro hri
    obtain ⟨hw, _⟩ :=
      (pass1Step_of_recurse fuel done id sw tl rf hkind).1 hri
    refine ⟨{ (pass1Step fuel done id sw tl rf).1 with
      pc := done.length }, hlook, ?_, ?_⟩
    · show (pass1Step fuel done id sw tl rf).1.word.kind = .branchW
      rw [hw]
      rfl
    · show (pass1Step fuel done id sw tl rf).1.branchTo = _
      have hrr : (recurseRewrite fuel done id sw tl rf).1 =
          { sw with word := wBRANCH } := by
        unfold recurseRewrite
        rw [if_pos hkind, if_pos hri]
      rw [pass1Step_branchTo, hrr, hbt]
      rfl
  · intro hri
    obtain ⟨hw, hf⟩ :=
      (pass1Step_of_recurse fuel done id sw tl rf hkind).2 hri
    constructor
    · refine ⟨{ (pass1Step fuel done id sw tl rf).1 with
        pc := done.length }, hlook, ?_⟩
      show (pass1Step fuel done id sw tl rf).1.word.kind = .recurseW
      rw [hw]
      exact hkind
    · rw [hf]
      exact pass1Go_flag_mono elim fuel tl _ _

/-- A `_RECURSE` entry targeting the head entry (id 5). -/
def swRecDemo : SW := { mkSW wRECURSE (.off (-1)) with branchTo := some 5 }

/-- An already-processed head entry. -/
def doneDemo : List (Nat × SW) := [(5, mkSW wDUP .pnone)]

/-- Witness for the amended C5: a `_RECURSE` followed by `_RETURN` is
rewritten to `_BRANCH` aimed at the recorded head entry (id 5, not a
branch, so chain collapsing leaves it); one followed by `DUP` stays
`_RECURSE` and flags the word Recursive. -/
theorem c5_tailcall_rewrite_witness :
    (∃ sw2, lookupSW (pass1Go true 5 doneDemo
        ((0, swRecDemo) :: [(1, mkSW wRETURN .pnone)]) false false).1 0 =
      some sw2 ∧ sw2.word.kind = .branchW ∧
      sw2.branchTo = some 5) ∧
    ((∃ sw2, lookupSW (pass1Go true 5 doneDemo
        ((0, swRecDemo) :: [(1, mkSW wDUP .pnone)]) false false).1 0 =
      some sw2 ∧ sw2.word.kind = .recurseW) ∧
      (pass1Go true 5 doneDemo
        ((0, swRecDemo) :: [(1, mkSW wDUP .pnone)])
        false false).2 = true) := by
  constructor
  · obtain ⟨sw2, h1, h2, h3⟩ := (c5_tailcall_rewrite true 5 doneDemo
      0 swRecDemo [(1, mkSW wRETURN .pnone)] false false 5
      rfl rfl rfl (by decide)).1 rfl
    refine ⟨sw2, h1, h2, ?_⟩
    rw [h3]
    decide
  · exact (c5_tailcall_rewrite true 5 doneDemo 0 swRecDemo
      [(1, mkSW wDUP .pnone)] false false 5 rfl rfl rfl (by decide)).2 rfl

/-! ### Claim C7: dead-code elimination and observable behaviour

As stated the claim is false: the pass erases only entries not marked
`isBranchDestination`, but the epilogue's `_words.back() = {_RETURN}`
builds a fresh `SourceWord` and thereby resets that mark on the
still-targeted final entry.  For `1 BEGIN DUP WHILE 1 - REPEAT` the
`WHILE`'s `_ZBRANCH` targets that `_RETURN`, which follows the loop's
unconditional backward `_BRANCH` unmarked, so the pass deletes a live
branch target; the surviving `_ZBRANCH`'s recorded target then
resolves to nothing at emission (a dangling iterator in the C++) and
the compiled word loops forever instead of returning
(`c7_dead_code_counterexample`).

The amended claim holds whenever every recorded branch target is still
marked at the pass (`wfPassB`, with distinct entry ids).  The proof
relates the production pass (`elim = true`) to the same pass with the
dead-code branch disabled (`elim = false`).  The two passes make
identical rewriting decisions — `returnsImmediately` and the
branch-chain collapse only ever inspect the unprocessed suffix and
entries marked `isBranchDestination`, which the dead-code branch never
deletes — so the `elim = true` result is exactly the `sweep` (the
dead-code filter in isolation) of the `elim = false` result, up to the
assigned pcs.  A step-for-step simulation then shows the two emitted
programs run identically: erased instructions sit between an
unconditional branch and the next branch destination, where control
never goes. -/

/-- An entry with its (pass-assigned) pc forgotten. -/
def stripSW (sw : SW) : SW := { sw with pc := 0 }

/-- Pair version of `stripSW`. -/
def stripE (x : Nat × SW) : Nat × SW := (x.1, stripSW x.2)

/-- The dead-code filter in isolation: drop entries that follow an
unconditional `_BRANCH` and are not branch destinations.  Returns the
kept entries and the final `afterBranch` flag. -/
def sweep : List (Nat × SW) → Bool → List (Nat × SW) × Bool
  | [], ab => ([], ab)
  | x :: xs, ab =>
    if ab && !x.2.isDest then sweep xs ab
    else ((x :: (sweep xs (x.2.word.kind == .branchW)).1),
          (sweep xs (x.2.word.kind == .branchW)).2)

/-- The id `d` names a marked (branch-destination) entry of `l`. -/
def markedIn (l : List (Nat × SW)) (d : Nat) : Prop :=
  ∃ y ∈ l, y.1 = d ∧ y.2.isDest = true

/-- Every recorded branch target names a marked entry (the `branchesTo`
invariant). -/
def WFm (l : List (Nat × SW)) : Prop :=
  ∀ x ∈ l, ∀ d, x.2.branchTo = some d → markedIn l d

/-- The kinds that may carry a recorded branch target. -/
def kindIn3 (k : WTag) : Prop :=
  k = .branchW ∨ k = .zbranchW ∨ k = .recurseW

/-- `pass1Step` preserves the `isBranchDestination` flag. -/
lemma pass1Step_dest (fuel : Nat) (done : List (Nat × SW)) (id : Nat)
    (sw : SW) (rest : List (Nat × SW)) (rf : Bool) :
    (pass1Step fuel done id sw rest rf).1.isDest = sw.isDest := by
  have hrw : (recurseRewrite fuel done id sw rest rf).1.isDest =
      sw.isDest := by
    unfold recurseRewrite
    by_cases h : sw.word.kind = .recurseW
    · by_cases hri : recurseReturns fuel done id sw rest = true
      · rw [if_pos h, if_pos hri]
      · rw [if_pos h, if_neg hri]
    · rw [if_neg h]
  show (collapseTarget fuel done id
    (recurseRewrite fuel done id sw rest rf).1 rest).isDest = _
  unfold collapseTarget
  cases hbt : (recurseRewrite fuel done id sw rest rf).1.branchTo <;>
    simp [hbt, hrw]

/-- The sweep keeps a marked entry. -/
lemma sweep_keeps_marked :
    ∀ (l : List (Nat × SW)) (ab : Bool) (x : Nat × SW),
      x ∈ l → x.2.isDest = true → x ∈ (sweep l ab).1 := by
  intro l
  induction l with
  | nil => intro ab x hx; cases hx
  | cons z zs ih =>
    intro ab x hx hdest
    rcases List.mem_cons.mp hx with hx | hx
    · subst hx
      unfold sweep
      rw [if_neg (by simp [hdest])]
      exact List.mem_cons_self _ _
    · unfold sweep
      by_cases hc : (ab && !z.2.isDest) = true
      · rw [if_pos hc]
        exact ih ab x hx hdest
      · rw [if_neg hc]
        exact List.mem_cons_of_mem _ (ih _ x hx hdest)

/-- Every kept entry is an entry of the input. -/
lemma sweep_subset :
    ∀ (l : List (Nat × SW)) (ab : Bool) (x : Nat × SW),
      x ∈ (sweep l ab).1 → x ∈ l := by
  intro l
  induction l with
  | nil => intro ab x hx; cases hx
  | cons z zs ih =>
    intro ab x hx
    unfold sweep at hx
    by_cases hc : (ab && !z.2.isDest) = true
    · rw [if_pos hc] at hx
      exact List.mem_cons_of_mem _ (ih ab x hx)
    · rw [if_neg hc] at hx
      rcases List.mem_cons.mp hx with hx | hx
      · exact hx ▸ List.mem_cons_self _ _
      · exact List.mem_cons_of_mem _ (ih _ x hx)

/-- Appending one entry to the swept list. -/
lemma sweep_snoc (l : List (Nat × SW)) (x : Nat × SW) (ab : Bool) :
    sweep (l ++ [x]) ab =
      (if (sweep l ab).2 && !x.2.isDest then (sweep l ab).1
        else (sweep l ab).1 ++ [x],
       if (sweep l ab).2 && !x.2.isDest then (sweep l ab).2
        else (x.2.word.kind == .branchW)) := by
  induction l generalizing ab with
  | nil =>
    show sweep [x] ab = _
    unfold sweep
    by_cases hc : (ab && !x.2.isDest) = true
    · rw [if_pos hc, if_pos hc, if_pos hc]
      rfl
    · rw [if_neg hc, if_neg hc, if_neg hc]
      rfl
  | cons z zs ih =>
    show sweep (z :: (zs ++ [x])) ab = _
    unfold sweep
    by_cases hc : (ab && !z.2.isDest) = true
    · rw [if_pos hc, if_pos hc, ih ab]
    · rw [if_neg hc, if_neg hc, ih (z.2.word.kind == .branchW)]
      by_cases hc2 : ((sweep zs (z.2.word.kind == .branchW)).2 &&
          !x.2.isDest) = true
      · rw [if_pos hc2, if_pos hc2, if_pos hc2]
      · rw [if_neg hc2, if_neg hc2, if_neg hc2]
        rfl

/-- Fields of the entry untouched by the `_RECURSE` rewrite (it only
may change the word). -/
lemma recurseRewrite_props (fuel : Nat) (done : List (Nat × SW))
    (id : Nat) (sw : SW) (rest : List (Nat × SW)) (rf : Bool) :
    (recurseRewrite fuel done id sw rest rf).1.branchTo = sw.branchTo ∧
    (recurseRewrite fuel done id sw rest rf).1.isDest = sw.isDest ∧
    (recurseRewrite fuel done id sw rest rf).1.param = sw.param ∧
    (recurseRewrite fuel done id sw rest rf).1.pc = sw.pc := by
  unfold recurseRewrite
  by_cases h : sw.word.kind = .recurseW
  · by_cases hri : recurseReturns fuel done id sw rest = true
    · rw [if_pos h, if_pos hri]
      exact ⟨rfl, rfl, rfl, rfl⟩
    · rw [if_pos h, if_neg hri]
      exact ⟨rfl, rfl, rfl, rfl⟩
  · rw [if_neg h]
    exact ⟨rfl, rfl, rfl, rfl⟩

/-- Unfolding `sweep` at a dropped head entry. -/
lemma sweep_cons_erase (z : Nat × SW) (zs : List (Nat × SW)) (ab : Bool)
    (hc : (ab && !z.2.isDest) = true) :
    sweep (z :: zs) ab = sweep zs ab := by
  show (if (ab && !z.2.isDest) = true then sweep zs ab
    else ((z :: (sweep zs (z.2.word.kind == .branchW)).1),
      (sweep zs (z.2.word.kind == .branchW)).2)) = sweep zs ab
  rw [if_pos hc]

/-- Unfolding `sweep` at a kept head entry. -/
lemma sweep_cons_keep (z : Nat × SW) (zs : List (Nat × SW)) (ab : Bool)
    (hc : ¬ ((ab && !z.2.isDest) = true)) :
    sweep (z :: zs) ab =
      ((z :: (sweep zs (z.2.word.kind == .branchW)).1),
        (sweep zs (z.2.word.kind == .branchW)).2) := by
  show (if (ab && !z.2.isDest) = true then sweep zs ab
    else ((z :: (sweep zs (z.2.word.kind == .branchW)).1),
      (sweep zs (z.2.word.kind == .branchW)).2)) = _
  rw [if_neg hc]

/-- The head of the swept list is the head of the input when the
`afterBranch` flag starts false. -/
lemma sweep_align_zero (l : List (Nat × SW)) :
    (∃ x, (sweep l false).1.get? 0 = some x ∧ l.get? 0 = some x) ∨
    ((sweep l false).1.get? 0 = none ∧ l.get? 0 = none) := by
  cases l with
  | nil => exact Or.inr ⟨rfl, rfl⟩
  | cons z zs =>
    left
    refine ⟨z, ?_, rfl⟩
    rw [sweep_cons_keep z zs false (by simp)]
    rfl

/-- Positions of kept entries: each kept entry occurs in the input, and
for a kept non-`_BRANCH` entry, either both successor positions hold
the same entry or both lists end. -/
lemma sweep_align :
    ∀ (l : List (Nat × SW)) (ab : Bool) (k : Nat) (x : Nat × SW),
      (sweep l ab).1.get? k = some x →
      ∃ j, l.get? j = some x ∧
        (x.2.word.kind ≠ .branchW →
          ((∃ y, (sweep l ab).1.get? (k + 1) = some y ∧
              l.get? (j + 1) = some y) ∨
            ((sweep l ab).1.get? (k + 1) = none ∧
              l.get? (j + 1) = none))) := by
  intro l
  induction l with
  | nil =>
    intro ab k x hx
    cases hx
  | cons z zs ih =>
    intro ab k x hx
    by_cases hc : (ab && !z.2.isDest) = true
    · rw [sweep_cons_erase z zs ab hc] at hx ⊢
      obtain ⟨j, hj, hsucc⟩ := ih ab k x hx
      refine ⟨j + 1, by simpa using hj, ?_⟩
      intro hkind
      rcases hsucc hkind with ⟨y, h1, h2⟩ | ⟨h1, h2⟩
      · exact Or.inl ⟨y, h1, by simpa using h2⟩
      · exact Or.inr ⟨h1, by simpa using h2⟩
    · rw [sweep_cons_keep z zs ab hc] at hx ⊢
      cases k with
      | zero =>
        simp only [List.get?] at hx
        injection hx with hx
        refine ⟨0, by rw [hx]; rfl, ?_⟩
        intro hkind
        have hab2 : (z.2.word.kind == .branchW) = false :=
          beq_eq_false_iff_ne.mpr (by rw [hx]; exact hkind)
        rw [hab2]
        show (∃ y, (sweep zs false).1.get? 0 = some y ∧
            zs.get? 0 = some y) ∨
          ((sweep zs false).1.get? 0 = none ∧ zs.get? 0 = none)
        exact sweep_align_zero zs
      | succ k2 =>
        simp only [List.get?] at hx
        obtain ⟨j2, hj2, hsucc2⟩ :=
          ih (z.2.word.kind == .branchW) k2 x hx
        refine ⟨j2 + 1, by simpa using hj2, ?_⟩
        intro hkind
        rcases hsucc2 hkind with ⟨y, h1, h2⟩ | ⟨h1, h2⟩
        · exact Or.inl ⟨y, h1, by simpa using h2⟩
        · exact Or.inr ⟨h1, by simpa using h2⟩

/-- Markedness only depends on keys and flags, which replacing the
middle entry by one with the same flag preserves. -/
lemma markedIn_mid (doneF tl : List (Nat × SW)) (id : Nat)
    (sw sw1 : SW) (hdest : sw1.isDest = sw.isDest) (d : Nat) :
    markedIn (doneF ++ (id, sw) :: tl) d ↔
      markedIn (doneF ++ (id, sw1) :: tl) d := by
  constructor
  · rintro ⟨y, hy, hk, hdst⟩
    rcases List.mem_append.mp hy with hy | hy
    · exact ⟨y, List.mem_append_left _ hy, hk, hdst⟩
    · rcases List.mem_cons.mp hy with hy | hy
      · refine ⟨(id, sw1), List.mem_append_right _
          (List.mem_cons_self _ _), ?_, ?_⟩
        · rw [← hk, hy]
        · rw [hdest, ← hdst, hy]
      · exact ⟨y, List.mem_append_right _
          (List.mem_cons_of_mem _ hy), hk, hdst⟩
  · rintro ⟨y, hy, hk, hdst⟩
    rcases List.mem_append.mp hy with hy | hy
    · exact ⟨y, List.mem_append_left _ hy, hk, hdst⟩
    · rcases List.mem_cons.mp hy with hy | hy
      · refine ⟨(id, sw), List.mem_append_right _
          (List.mem_cons_self _ _), ?_, ?_⟩
        · rw [← hk, hy]
        · rw [← hdest, ← hdst, hy]
      · exact ⟨y, List.mem_append_right _
          (List.mem_cons_of_mem _ hy), hk, hdst⟩

/-- Well-formedness transfers across replacing the middle entry by one
with the same flag whose recorded target is marked. -/
lemma WFm_mid (doneF tl : List (Nat × SW)) (id : Nat) (sw sw1 : SW)
    (hdest : sw1.isDest = sw.isDest)
    (hbt : ∀ d, sw1.branchTo = some d →
      markedIn (doneF ++ (id, sw) :: tl) d)
    (h : WFm (doneF ++ (id, sw) :: tl)) :
    WFm (doneF ++ (id, sw1) :: tl) := by
  intro x hx d hd
  rcases List.mem_append.mp hx with hx | hx
  · exact (markedIn_mid doneF tl id sw sw1 hdest d).mp
      (h x (List.mem_append_left _ hx) d hd)
  · rcases List.mem_cons.mp hx with hx | hx
    · refine (markedIn_mid doneF tl id sw sw1 hdest d).mp (hbt d ?_)
      rw [← hd, hx]
    · exact (markedIn_mid doneF tl id sw sw1 hdest d).mp
        (h x (List.mem_append_right _ (List.mem_cons_of_mem _ hx)) d hd)

/-- Unfolding `collapseChain` when the id resolves to nothing. -/
lemma collapseChain_none (l : List (Nat × SW)) (f d : Nat)
    (hl : lookupSW l d = none) :
    collapseChain l (f + 1) d = d := by
  unfold collapseChain
  rw [hl]

/-- Unfolding `collapseChain` at a non-`_BRANCH` entry. -/
lemma collapseChain_notBranch (l : List (Nat × SW)) (f d : Nat)
    (t : SW) (hl : lookupSW l d = some t)
    (hk : ¬ (t.word.kind = .branchW)) :
    collapseChain l (f + 1) d = d := by
  unfold collapseChain
  rw [hl]
  show (if t.word.kind = .branchW then
      (match t.branchTo with
        | some d2 => collapseChain l f d2
        | none => d)
    else d) = d
  rw [if_neg hk]

/-- Unfolding `collapseChain` at a `_BRANCH` with no recorded target. -/
lemma collapseChain_noTarget (l : List (Nat × SW)) (f d : Nat)
    (t : SW) (hl : lookupSW l d = some t)
    (hk : t.word.kind = .branchW) (hbt : t.branchTo = none) :
    collapseChain l (f + 1) d = d := by
  unfold collapseChain
  rw [hl]
  show (if t.word.kind = .branchW then
      (match t.branchTo with
        | some d2 => collapseChain l f d2
        | none => d)
    else d) = d
  rw [if_pos hk, hbt]

/-- Unfolding `collapseChain` at a `_BRANCH` with a recorded target:
the chain is followed. -/
lemma collapseChain_step (l : List (Nat × SW)) (f d : Nat)
    (t : SW) (hl : lookupSW l d = some t)
    (hk : t.word.kind = .branchW) (d2 : Nat)
    (hbt : t.branchTo = some d2) :
    collapseChain l (f + 1) d = collapseChain l f d2 := by
  show (match lookupSW l d with
    | some t2 =>
      if t2.word.kind = .branchW then
        (match t2.branchTo with
          | some d3 => collapseChain l f d3
          | none => d)
      else d
    | none => d) = collapseChain l f d2
  rw [hl]
  show (if t.word.kind = .branchW then
      (match t.branchTo with
        | some d3 => collapseChain l f d3
        | none => d)
    else d) = collapseChain l f d2
  rw [if_pos hk, hbt]

/-- A successful id lookup yields an entry of the list. -/
lemma lookupSW_mem (l : List (Nat × SW)) (d : Nat) (t : SW)
    (hl : lookupSW l d = some t) : ∃ i, (i, t) ∈ l := by
  unfold lookupSW at hl
  cases hf : l.find? (fun x => x.1 == d) with
  | none => rw [hf] at hl; cases hl
  | some p =>
    rw [hf] at hl
    simp only [Option.map_some', Option.some.injEq] at hl
    exact ⟨p.1, by rw [← hl]; exact List.mem_of_find?_eq_some hf⟩

/-- The chain collapse lands on a marked entry when it starts from
one. -/
lemma collapseChain_marked (l : List (Nat × SW)) (hWFm : WFm l) :
    ∀ (f : Nat) (d : Nat), markedIn l d →
      markedIn l (collapseChain l f d) := by
  intro f
  induction f with
  | zero => intro d hd; exact hd
  | succ f2 ih =>
    intro d hd
    cases hl : lookupSW l d with
    | none => rw [collapseChain_none l f2 d hl]; exact hd
    | some t =>
      by_cases hk : t.word.kind = .branchW
      · cases hbt : t.branchTo with
        | none => rw [collapseChain_noTarget l f2 d t hl hk hbt]; exact hd
        | some d2 =>
          rw [collapseChain_step l f2 d t hl hk d2 hbt]
          obtain ⟨i, hit⟩ := lookupSW_mem l d t hl
          exact ih d2 (hWFm (i, t) hit d2 hbt)
      · rw [collapseChain_notBranch l f2 d t hl hk]
        exact hd

/-- A successful id lookup returns the entry keyed by that id. -/
lemma lookupSW_key (l : List (Nat × SW)) (d : Nat) (t : SW)
    (hl : lookupSW l d = some t) : (d, t) ∈ l := by
  unfold lookupSW at hl
  cases hf : l.find? (fun x => x.1 == d) with
  | none => rw [hf] at hl; cases hl
  | some p =>
    rw [hf] at hl
    simp only [Option.map_some', Option.some.injEq] at hl
    have hp := List.find?_some hf
    have hk : p.1 = d := by simpa using hp
    have : p = (d, t) := by
      rw [← hk, ← hl]
    exact this ▸ List.mem_of_find?_eq_some hf

/-- The swept list is a sublist of the input. -/
lemma sweep_sublist :
    ∀ (l : List (Nat × SW)) (ab : Bool), List.Sublist (sweep l ab).1 l := by
  intro l
  induction l with
  | nil => intro ab; exact List.Sublist.refl _
  | cons z zs ih =>
    intro ab
    by_cases hc : (ab && !z.2.isDest) = true
    · rw [sweep_cons_erase z zs ab hc]
      exact List.Sublist.cons z (ih ab)
    · rw [sweep_cons_keep z zs ab hc]
      exact List.Sublist.cons₂ z (ih _)

/-- `stripE` keeps the key, so key lists pass through it. -/
lemma keys_stripE (l : List (Nat × SW)) :
    l.map (·.1) = (l.map stripE).map (·.1) := by
  rw [List.map_map]
  exact List.map_congr_left (fun x _ => rfl)

/-- Lookups of marked ids agree — up to the assigned pc — between the
production pass's processed prefix and the sweep of the reference
pass's, both over the common unprocessed suffix. -/
lemma lookup_agree (doneT doneF sfx : List (Nat × SW)) (d : Nat)
    (hstrip : doneT.map stripE = ((sweep doneF false).1).map stripE)
    (hnd : ((doneF ++ sfx).map (·.1)).Nodup)
    (hmk : markedIn (doneF ++ sfx) d) :
    (lookupSW (doneT ++ sfx) d).map stripSW =
      (lookupSW (doneF ++ sfx) d).map stripSW := by
  obtain ⟨y, hy, hyd, hydest⟩ := hmk
  have hye : y = (d, y.2) := by rw [← hyd]
  have hyF : (d, y.2) ∈ doneF ++ sfx := hye ▸ hy
  have hF : lookupSW (doneF ++ sfx) d = some y.2 :=
    lookupSW_of_mem_nodup _ d y.2 hnd hyF
  have hndT : ((doneT ++ sfx).map (·.1)).Nodup := by
    have hkeys : (doneT ++ sfx).map (·.1) =
        (sweep doneF false).1.map (·.1) ++ sfx.map (·.1) := by
      rw [List.map_append, keys_stripE doneT, hstrip, ← keys_stripE]
    rw [hkeys]
    refine List.Nodup.sublist ?_ (by rw [List.map_append] at hnd; exact hnd)
    exact ((sweep_sublist doneF false).map _).append (List.Sublist.refl _)
  rcases List.mem_append.mp hy with hyDF | hySfx
  · have hkept : y ∈ (sweep doneF false).1 :=
      sweep_keeps_marked doneF false y hyDF hydest
    obtain ⟨kd, hkd⟩ := List.mem_iff_get?.mp hkept
    have hpt : (doneT.get? kd).map stripE =
        ((sweep doneF false).1.get? kd).map stripE := by
      rw [← List.get?_map, ← List.get?_map, hstrip]
    rw [hkd] at hpt
    cases hxT : doneT.get? kd with
    | none => rw [hxT] at hpt; cases hpt
    | some x =>
      rw [hxT] at hpt
      simp only [Option.map_some', Option.some.injEq] at hpt
      have hxkey : x.1 = d := by
        have : (stripE x).1 = (stripE y).1 := by rw [hpt]
        simpa using this ▸ hyd
      have hxe : x = (d, x.2) := by rw [← hxkey]
      have hxT2 : (d, x.2) ∈ doneT ++ sfx :=
        List.mem_append_left _ (hxe ▸ List.get?_mem hxT)
      have hT : lookupSW (doneT ++ sfx) d = some x.2 :=
        lookupSW_of_mem_nodup _ d x.2 hndT hxT2
      rw [hT, hF]
      simp only [Option.map_some', Option.some.injEq]
      exact congrArg Prod.snd hpt
  · have hyT : (d, y.2) ∈ doneT ++ sfx :=
      List.mem_append_right _ (hye ▸ hySfx)
    have hT : lookupSW (doneT ++ sfx) d = some y.2 :=
      lookupSW_of_mem_nodup _ d y.2 hndT hyT
    rw [hT, hF]

/-- pc-stripped-equal entries agree on the word. -/
lemma stripSW_word (a b : SW) (h : stripSW a = stripSW b) :
    a.word = b.word := by
  have h2 : (stripSW a).word = (stripSW b).word := congrArg SW.word h
  exact h2

/-- pc-stripped-equal entries agree on the inline parameter. -/
lemma stripSW_param (a b : SW) (h : stripSW a = stripSW b) :
    a.param = b.param := by
  have h2 : (stripSW a).param = (stripSW b).param := congrArg SW.param h
  exact h2

/-- pc-stripped-equal entries agree on the recorded branch target. -/
lemma stripSW_branchTo (a b : SW) (h : stripSW a = stripSW b) :
    a.branchTo = b.branchTo := by
  have h2 : (stripSW a).branchTo = (stripSW b).branchTo :=
    congrArg SW.branchTo h
  exact h2

/-- pc-stripped-equal entries agree on the destination flag. -/
lemma stripSW_isDest (a b : SW) (h : stripSW a = stripSW b) :
    a.isDest = b.isDest := by
  have h2 : (stripSW a).isDest = (stripSW b).isDest :=
    congrArg SW.isDest h
  exact h2

/-- Unfolding `returnsImmediately` at a non-`_BRANCH` word. -/
lemma rI_notBranch (l : List (Nat × SW)) (f : Nat) (sw : SW)
    (hk : ¬ (sw.word.kind = .branchW)) :
    returnsImmediately l (f + 1) sw = (sw.word.kind == .returnW) := by
  show (if sw.word.kind = .branchW then
      (match sw.branchTo with
        | some d =>
          (match lookupSW l d with
            | some t => returnsImmediately l f t
            | none => false)
        | none => false)
    else sw.word.kind == .returnW) = _
  rw [if_neg hk]

/-- Unfolding `returnsImmediately` at a `_BRANCH` with no target. -/
lemma rI_branch_noTarget (l : List (Nat × SW)) (f : Nat) (sw : SW)
    (hk : sw.word.kind = .branchW) (hbt : sw.branchTo = none) :
    returnsImmediately l (f + 1) sw = false := by
  show (if sw.word.kind = .branchW then
      (match sw.branchTo with
        | some d =>
          (match lookupSW l d with
            | some t => returnsImmediately l f t
            | none => false)
        | none => false)
    else sw.word.kind == .returnW) = _
  rw [if_pos hk, hbt]

/-- Unfolding `returnsImmediately` at a `_BRANCH` whose target id
resolves to nothing. -/
lemma rI_branch_lost (l : List (Nat × SW)) (f : Nat) (sw : SW)
    (hk : sw.word.kind = .branchW) (d : Nat) (hbt : sw.branchTo = some d)
    (hl : lookupSW l d = none) :
    returnsImmediately l (f + 1) sw = false := by
  show (if sw.word.kind = .branchW then
      (match sw.branchTo with
        | some d2 =>
          (match lookupSW l d2 with
            | some t => returnsImmediately l f t
            | none => false)
        | none => false)
    else sw.word.kind == .returnW) = _
  rw [if_pos hk, hbt]
  show (match lookupSW l d with
    | some t => returnsImmediately l f t
    | none => false) = _
  rw [hl]

/-- Unfolding `returnsImmediately` at a `_BRANCH` whose target id
resolves: recurse on the target. -/
lemma rI_branch_step (l : List (Nat × SW)) (f : Nat) (sw : SW)
    (hk : sw.word.kind = .branchW) (d : Nat) (hbt : sw.branchTo = some d)
    (t : SW) (hl : lookupSW l d = some t) :
    returnsImmediately l (f + 1) sw = returnsImmediately l f t := by
  show (if sw.word.kind = .branchW then
      (match sw.branchTo with
        | some d2 =>
          (match lookupSW l d2 with
            | some t2 => returnsImmediately l f t2
            | none => false)
        | none => false)
    else sw.word.kind == .returnW) = _
  rw [if_pos hk, hbt]
  show (match lookupSW l d with
    | some t2 => returnsImmediately l f t2
    | none => false) = _
  rw [hl]

/-- `returnsImmediately` computes the same answer over two lists whose
lookups of marked ids agree up to pc, starting from two pc-equal
instructions; the start must belong to the second list so that every
branch target along the chain is marked. -/
lemma returnsImmediately_agree (l1 l2 : List (Nat × SW))
    (hlk : ∀ d, markedIn l2 d →
      (lookupSW l1 d).map stripSW = (lookupSW l2 d).map stripSW)
    (hWFm : WFm l2) :
    ∀ (f : Nat) (a b : SW), stripSW a = stripSW b →
      (∃ i, (i, b) ∈ l2) →
      returnsImmediately l1 f a = returnsImmediately l2 f b := by
  intro f
  induction f with
  | zero => intro a b _ _; rfl
  | succ f2 ih =>
    intro a b hab hmem
    have hw : a.word = b.word := stripSW_word a b hab
    have hbt : a.branchTo = b.branchTo := stripSW_branchTo a b hab
    by_cases hk : b.word.kind = .branchW
    · have hka : a.word.kind = .branchW := by rw [hw]; exact hk
      cases hbtb : b.branchTo with
      | none =>
        rw [rI_branch_noTarget l1 f2 a hka (by rw [hbt]; exact hbtb),
            rI_branch_noTarget l2 f2 b hk hbtb]
      | some d =>
        have hbta : a.branchTo = some d := by rw [hbt]; exact hbtb
        have hmk : markedIn l2 d := by
          obtain ⟨i, hib⟩ := hmem
          exact hWFm (i, b) hib d hbtb
        have hlkd := hlk d hmk
        cases hl2 : lookupSW l2 d with
        | none =>
          rw [hl2] at hlkd
          simp only [Option.map_none'] at hlkd
          have hl1 : lookupSW l1 d = none := Option.map_eq_none'.mp hlkd
          rw [rI_branch_lost l1 f2 a hka d hbta hl1,
              rI_branch_lost l2 f2 b hk d hbtb hl2]
        | some t2 =>
          rw [hl2] at hlkd
          cases hl1 : lookupSW l1 d with
          | none => rw [hl1] at hlkd; cases hlkd
          | some t1 =>
            rw [hl1] at hlkd
            simp only [Option.map_some', Option.some.injEq] at hlkd
            rw [rI_branch_step l1 f2 a hka d hbta t1 hl1,
                rI_branch_step l2 f2 b hk d hbtb t2 hl2]
            exact ih t1 t2 hlkd ⟨d, lookupSW_key l2 d t2 hl2⟩
    · have hka : ¬ (a.word.kind = .branchW) := by rw [hw]; exact hk
      rw [rI_notBranch l1 f2 a hka, rI_notBranch l2 f2 b hk, hw]

/-- `collapseChain` computes the same destination over two lists whose
lookups of marked ids agree up to pc, starting from a marked id. -/
lemma collapseChain_agree (l1 l2 : List (Nat × SW))
    (hlk : ∀ d, markedIn l2 d →
      (lookupSW l1 d).map stripSW = (lookupSW l2 d).map stripSW)
    (hWFm : WFm l2) :
    ∀ (f : Nat) (d : Nat), markedIn l2 d →
      collapseChain l1 f d = collapseChain l2 f d := by
  intro f
  induction f with
  | zero => intro d _; rfl
  | succ f2 ih =>
    intro d hd
    have hlkd := hlk d hd
    cases hl2 : lookupSW l2 d with
    | none =>
      rw [hl2] at hlkd
      simp only [Option.map_none'] at hlkd
      have hl1 : lookupSW l1 d = none := Option.map_eq_none'.mp hlkd
      rw [collapseChain_none l1 f2 d hl1, collapseChain_none l2 f2 d hl2]
    | some t2 =>
      rw [hl2] at hlkd
      cases hl1 : lookupSW l1 d with
      | none => rw [hl1] at hlkd; cases hlkd
      | some t1 =>
        rw [hl1] at hlkd
        simp only [Option.map_some', Option.some.injEq] at hlkd
        have hw : t1.word = t2.word := stripSW_word t1 t2 hlkd
        have hbt : t1.branchTo = t2.branchTo := stripSW_branchTo t1 t2 hlkd
        by_cases hk : t2.word.kind = .branchW
        · have hk1 : t1.word.kind = .branchW := by rw [hw]; exact hk
          cases hbt2 : t2.branchTo with
          | none =>
            rw [collapseChain_noTarget l1 f2 d t1 hl1 hk1
                  (by rw [hbt]; exact hbt2),
                collapseChain_noTarget l2 f2 d t2 hl2 hk hbt2]
          | some d2 =>
            have hd2 : markedIn l2 d2 :=
              hWFm (d, t2) (lookupSW_key l2 d t2 hl2) d2 hbt2
            rw [collapseChain_step l1 f2 d t1 hl1 hk1 d2
                  (by rw [hbt]; exact hbt2),
                collapseChain_step l2 f2 d t2 hl2 hk d2 hbt2]
            exact ih d2 hd2
        · have hk1 : ¬ (t1.word.kind = .branchW) := by rw [hw]; exact hk
          rw [collapseChain_notBranch l1 f2 d t1 hl1 hk1,
              collapseChain_notBranch l2 f2 d t2 hl2 hk]

/-- The two passes make the same `returnsImmediately(next)` decision
for the entry at hand. -/
lemma recurseReturns_agree (fuel : Nat) (doneT doneF : List (Nat × SW))
    (id : Nat) (sw : SW) (tl : List (Nat × SW))
    (hstrip : doneT.map stripE = ((sweep doneF false).1).map stripE)
    (hnd : ((doneF ++ (id, sw) :: tl).map (·.1)).Nodup)
    (hWFm : WFm (doneF ++ (id, sw) :: tl)) :
    recurseReturns fuel doneT id sw tl =
      recurseReturns fuel doneF id sw tl := by
  unfold recurseReturns
  cases tl with
  | nil => rfl
  | cons nx tl2 =>
    show returnsImmediately (doneT ++ (id, sw) :: nx :: tl2) fuel nx.2 =
      returnsImmediately (doneF ++ (id, sw) :: nx :: tl2) fuel nx.2
    refine returnsImmediately_agree _ _ ?_ hWFm fuel nx.2 nx.2 rfl ?_
    · intro d hd
      exact lookup_agree doneT doneF ((id, sw) :: nx :: tl2) d hstrip hnd hd
    · exact ⟨nx.1, List.mem_append_right _
        (List.mem_cons_of_mem _ (List.mem_cons_self _ _))⟩

/-- The two passes compute the same rewritten entry — exactly, pcs
apart — for the entry at hand: the pass decisions only consult the
unprocessed suffix and marked entries, which agree between the two
processed prefixes. -/
lemma pass1Step_agree (fuel : Nat) (doneT doneF : List (Nat × SW))
    (id : Nat) (sw : SW) (tl : List (Nat × SW)) (rfT rfF : Bool)
    (hstrip : doneT.map stripE = ((sweep doneF false).1).map stripE)
    (hnd : ((doneF ++ (id, sw) :: tl).map (·.1)).Nodup)
    (hWFm : WFm (doneF ++ (id, sw) :: tl)) :
    (pass1Step fuel doneT id sw tl rfT).1 =
      (pass1Step fuel doneF id sw tl rfF).1 := by
  have hrr : (recurseRewrite fuel doneT id sw tl rfT).1 =
      (recurseRewrite fuel doneF id sw tl rfF).1 := by
    unfold recurseRewrite
    by_cases h : sw.word.kind = .recurseW
    · rw [if_pos h, if_pos h,
        recurseReturns_agree fuel doneT doneF id sw tl hstrip hnd hWFm]
      by_cases hri : recurseReturns fuel doneF id sw tl = true
      · rw [if_pos hri, if_pos hri]
      · rw [if_neg hri, if_neg hri]
    · rw [if_neg h, if_neg h]
  have hprops := recurseRewrite_props fuel doneF id sw tl rfF
  show collapseTarget fuel doneT id
      (recurseRewrite fuel doneT id sw tl rfT).1 tl =
    collapseTarget fuel doneF id
      (recurseRewrite fuel doneF id sw tl rfF).1 tl
  rw [hrr]
  have hWFm1 : WFm (doneF ++
      (id, (recurseRewrite fuel doneF id sw tl rfF).1) :: tl) := by
    refine WFm_mid doneF tl id sw _ hprops.2.1 ?_ hWFm
    intro d3 hd3
    rw [hprops.1] at hd3
    exact hWFm (id, sw)
      (List.mem_append_right _ (List.mem_cons_self _ _)) d3 hd3
  have hnd1 : ((doneF ++
      (id, (recurseRewrite fuel doneF id sw tl rfF).1) :: tl).map
        (·.1)).Nodup := by
    have he : (doneF ++
        (id, (recurseRewrite fuel doneF id sw tl rfF).1) :: tl).map
          (·.1) = (doneF ++ (id, sw) :: tl).map (·.1) := by simp
    rw [he]
    exact hnd
  unfold collapseTarget
  cases hbt : (recurseRewrite fuel doneF id sw tl rfF).1.branchTo with
  | none => rfl
  | some d =>
    have hmkd : markedIn (doneF ++
        (id, (recurseRewrite fuel doneF id sw tl rfF).1) :: tl) d := by
      refine (markedIn_mid doneF tl id sw _ hprops.2.1 d).mp ?_
      refine hWFm (id, sw)
        (List.mem_append_right _ (List.mem_cons_self _ _)) d ?_
      rw [← hprops.1]
      exact hbt
    have hcc : collapseChain (doneT ++
        (id, (recurseRewrite fuel doneF id sw tl rfF).1) :: tl) fuel d =
      collapseChain (doneF ++
        (id, (recurseRewrite fuel doneF id sw tl rfF).1) :: tl) fuel d := by
      refine collapseChain_agree _ _ ?_ hWFm1 fuel d hmkd
      intro d2 hd2
      exact lookup_agree doneT doneF
        ((id, (recurseRewrite fuel doneF id sw tl rfF).1) :: tl) d2
        hstrip hnd1 hd2
    show ({ (recurseRewrite fuel doneF id sw tl rfF).1 with
        branchTo := some (collapseChain (doneT ++
          (id, (recurseRewrite fuel doneF id sw tl rfF).1) :: tl)
            fuel d) }) = _
    rw [hcc]

/-- The pass changes an entry's word kind only by the tail-call
rewrite `_RECURSE` → `_BRANCH`. -/
lemma pass1Step_kind (fuel : Nat) (done : List (Nat × SW)) (id : Nat)
    (sw : SW) (tl : List (Nat × SW)) (rf : Bool) :
    (pass1Step fuel done id sw tl rf).1.word.kind = sw.word.kind ∨
    ((pass1Step fuel done id sw tl rf).1.word.kind = .branchW ∧
      sw.word.kind = .recurseW) := by
  by_cases h : sw.word.kind = .recurseW
  · by_cases hri : recurseReturns fuel done id sw tl = true
    · right
      refine ⟨?_, h⟩
      rw [((pass1Step_of_recurse fuel done id sw tl rf h).1 hri).1]
      rfl
    · left
      rw [((pass1Step_of_recurse fuel done id sw tl rf h).2
        (Bool.eq_false_iff.mpr hri)).1]
  · left
    rw [(pass1Step_of_not_recurse fuel done id sw tl rf h).1]

/-- The pass's rewritten entry records only marked branch targets
(over the current working list). -/
lemma pass1Step_branchTo_marked (fuel : Nat) (done : List (Nat × SW))
    (id : Nat) (sw : SW) (tl : List (Nat × SW)) (rf : Bool)
    (hWFm : WFm (done ++ (id, sw) :: tl)) :
    ∀ d, (pass1Step fuel done id sw tl rf).1.branchTo = some d →
      markedIn (done ++ (id, sw) :: tl) d := by
  intro d hd
  rw [pass1Step_branchTo] at hd
  cases hbt : sw.branchTo with
  | none => rw [hbt] at hd; cases hd
  | some d0 =>
    rw [hbt] at hd
    simp only [Option.map_some', Option.some.injEq] at hd
    have hprops := recurseRewrite_props fuel done id sw tl rf
    have hWFm1 : WFm (done ++
        (id, (recurseRewrite fuel done id sw tl rf).1) :: tl) := by
      refine WFm_mid done tl id sw _ hprops.2.1 ?_ hWFm
      intro d3 hd3
      rw [hprops.1] at hd3
      exact hWFm (id, sw)
        (List.mem_append_right _ (List.mem_cons_self _ _)) d3 hd3
    have hmk0 : markedIn (done ++
        (id, (recurseRewrite fuel done id sw tl rf).1) :: tl) d0 :=
      (markedIn_mid done tl id sw _ hprops.2.1 d0).mp
        (hWFm (id, sw)
          (List.mem_append_right _ (List.mem_cons_self _ _)) d0 hbt)
    have hstep := collapseChain_marked _ hWFm1 fuel d0 hmk0
    rw [hd] at hstep
    exact (markedIn_mid done tl id sw _ hprops.2.1 d).mpr hstep

/-- Replacing the processed entry — with its pc assigned — keeps the
`branchesTo` invariant. -/
lemma pass1Step_WFm (fuel : Nat) (done : List (Nat × SW)) (id : Nat)
    (sw : SW) (tl : List (Nat × SW)) (rf : Bool) (n : Nat)
    (hWFm : WFm (done ++ (id, sw) :: tl)) :
    WFm (done ++
      (id, { (pass1Step fuel done id sw tl rf).1 with pc := n })
        :: tl) := by
  refine WFm_mid done tl id sw _ ?_ ?_ hWFm
  · exact pass1Step_dest fuel done id sw tl rf
  · intro d hd
    exact pass1Step_branchTo_marked fuel done id sw tl rf hWFm d hd

/-- The reference pass (`elim = false`) keeps the id sequence. -/
lemma passF_keys (fuel : Nat) :
    ∀ (rest done : List (Nat × SW)) (ab rf : Bool),
      ((pass1Go false fuel done rest ab rf).1).map (·.1) =
        done.map (·.1) ++ rest.map (·.1) := by
  intro rest
  induction rest with
  | nil =>
    intro done ab rf
    show (pass1Go false fuel done [] ab rf).1.map (·.1) = _
    simp [pass1Go]
  | cons hd tl ih =>
    intro done ab rf
    obtain ⟨id, sw⟩ := hd
    rw [pass1Go_cons_keep false fuel done id sw tl ab rf (by simp)]
    rw [ih]
    simp

/-- An entry records a branch target only on the three branch-like
kinds. -/
def entryKinded (x : Nat × SW) : Prop :=
  ∀ d, x.2.branchTo = some d → kindIn3 x.2.word.kind

/-- An entry of a branch-like kind records a branch target. -/
def entryTargeted (x : Nat × SW) : Prop :=
  kindIn3 x.2.word.kind → x.2.branchTo ≠ none

/-- The pass preserves both per-entry target disciplines. -/
lemma pass1Step_entryOK (fuel : Nat) (done : List (Nat × SW)) (id : Nat)
    (sw : SW) (tl : List (Nat × SW)) (rf : Bool) (n : Nat)
    (h1 : entryKinded (id, sw)) (h2 : entryTargeted (id, sw)) :
    entryKinded
        (id, { (pass1Step fuel done id sw tl rf).1 with pc := n }) ∧
      entryTargeted
        (id, { (pass1Step fuel done id sw tl rf).1 with pc := n }) := by
  have hbt : ({ (pass1Step fuel done id sw tl rf).1 with
      pc := n }).branchTo = (pass1Step fuel done id sw tl rf).1.branchTo :=
    rfl
  have hkd : ({ (pass1Step fuel done id sw tl rf).1 with
      pc := n }).word.kind = (pass1Step fuel done id sw tl rf).1.word.kind :=
    rfl
  cases hbt0 : sw.branchTo with
  | none =>
    have hres : (pass1Step fuel done id sw tl rf).1.branchTo = none := by
      rw [pass1Step_branchTo, hbt0]
      rfl
    constructor
    · intro d hd
      rw [hbt, hres] at hd
      cases hd
    · intro hk
      exfalso
      rw [hkd] at hk
      rcases pass1Step_kind fuel done id sw tl rf with hsame | ⟨_, hrec⟩
      · rw [hsame] at hk
        exact h2 hk hbt0
      · exact h2 (Or.inr (Or.inr hrec)) hbt0
  | some d0 =>
    have hres : ∃ d1, (pass1Step fuel done id sw tl rf).1.branchTo =
        some d1 := by
      rw [pass1Step_branchTo, hbt0]
      exact ⟨_, rfl⟩
    obtain ⟨d1, hres⟩ := hres
    constructor
    · intro d hd
      rw [hkd]
      rcases pass1Step_kind fuel done id sw tl rf with hsame | ⟨hbr, _⟩
      · rw [hsame]
        exact h1 d0 hbt0
      · rw [hbr]
        exact Or.inl rfl
    · intro _ hnone
      rw [hbt, hres] at hnone
      cases hnone

/-- The reference pass keeps the `branchesTo` invariant and both
target disciplines. -/
lemma passF_inv (fuel : Nat) :
    ∀ (rest done : List (Nat × SW)) (ab rf : Bool),
      WFm (done ++ rest) →
      (∀ x ∈ done ++ rest, entryKinded x ∧ entryTargeted x) →
      WFm (pass1Go false fuel done rest ab rf).1 ∧
      (∀ x ∈ (pass1Go false fuel done rest ab rf).1,
        entryKinded x ∧ entryTargeted x) := by
  intro rest
  induction rest with
  | nil =>
    intro done ab rf hWFm hok
    show WFm (pass1Go false fuel done [] ab rf).1 ∧ _
    simp only [pass1Go]
    exact ⟨by simpa using hWFm, by simpa using hok⟩
  | cons hd tl ih =>
    intro done ab rf hWFm hok
    obtain ⟨id, sw⟩ := hd
    rw [pass1Go_cons_keep false fuel done id sw tl ab rf (by simp)]
    have hshape : (done ++
        [(id, { (pass1Step fuel done id sw tl rf).1 with
          pc := done.length })]) ++ tl =
        done ++ ((id, { (pass1Step fuel done id sw tl rf).1 with
          pc := done.length }) :: tl) := by
      rw [List.append_assoc]
      rfl
    refine ih _ _ _ ?_ ?_
    · rw [hshape]
      exact pass1Step_WFm fuel done id sw tl rf done.length hWFm
    · intro x hx
      rw [hshape] at hx
      rcases List.mem_append.mp hx with hx | hx
      · exact hok x (List.mem_append_left _ hx)
      · rcases List.mem_cons.mp hx with hx | hx
        · subst hx
          have hold := hok (id, sw)
            (List.mem_append_right _ (List.mem_cons_self _ _))
          exact pass1Step_entryOK fuel done id sw tl rf done.length
            hold.1 hold.2
        · exact hok x (List.mem_append_right _
            (List.mem_cons_of_mem _ hx))

/-- Master synchronization: the production pass (`elim = true`)
computes — up to assigned pcs — exactly the `sweep` of the reference
pass (`elim = false`), because the two passes take the same rewrite
decisions and the sweep drops exactly the entries the production pass
drops. -/
lemma pass_sync (fuel : Nat) :
    ∀ (rest doneT doneF : List (Nat × SW)) (abF rfT rfF : Bool),
      doneT.map stripE = ((sweep doneF false).1).map stripE →
      ((doneF ++ rest).map (·.1)).Nodup →
      WFm (doneF ++ rest) →
      ((pass1Go true fuel doneT rest
          ((sweep doneF false).2) rfT).1).map stripE =
        ((sweep ((pass1Go false fuel doneF rest abF rfF).1)
          false).1).map stripE := by
  intro rest
  induction rest with
  | nil =>
    intro doneT doneF abF rfT rfF h1 _ _
    show (pass1Go true fuel doneT []
      ((sweep doneF false).2) rfT).1.map stripE = _
    simp only [pass1Go]
    exact h1
  | cons hd tl ih =>
    intro doneT doneF abF rfT rfF h1 hnd hWFm
    obtain ⟨id, sw⟩ := hd
    rw [pass1Go_cons_keep false fuel doneF id sw tl abF rfF (by simp)]
    have hdestF : ({ (pass1Step fuel doneF id sw tl rfF).1 with
        pc := doneF.length }).isDest = sw.isDest :=
      pass1Step_dest fuel doneF id sw tl rfF
    have hsn := sweep_snoc doneF
      (id, { (pass1Step fuel doneF id sw tl rfF).1 with
        pc := doneF.length }) false
    have hshape : (doneF ++
        [(id, { (pass1Step fuel doneF id sw tl rfF).1 with
          pc := doneF.length })]) ++ tl =
        doneF ++ ((id, { (pass1Step fuel doneF id sw tl rfF).1 with
          pc := doneF.length }) :: tl) := by
      rw [List.append_assoc]
      rfl
    have hnd2 : (((doneF ++
        [(id, { (pass1Step fuel doneF id sw tl rfF).1 with
          pc := doneF.length })]) ++ tl).map
            (fun p : Nat × SW => p.1)).Nodup := by
      have he : ((doneF ++
          [(id, { (pass1Step fuel doneF id sw tl rfF).1 with
            pc := doneF.length })]) ++ tl).map
              (fun p : Nat × SW => p.1) =
          ((doneF ++ (id, sw) :: tl).map
            (fun p : Nat × SW => p.1)) := by simp
      rw [he]
      exact hnd
    have hWFm2 : WFm ((doneF ++
        [(id, { (pass1Step fuel doneF id sw tl rfF).1 with
          pc := doneF.length })]) ++ tl) := by
      rw [hshape]
      exact pass1Step_WFm fuel doneF id sw tl rfF doneF.length hWFm
    by_cases hc : ((sweep doneF false).2 && !sw.isDest) = true
    · rw [pass1Go_cons_erase true fuel doneT id sw tl
        ((sweep doneF false).2) rfT
        (by simp only [Bool.true_and]; exact hc)]
      have hcond : ((sweep doneF false).2 &&
          !(id, { (pass1Step fuel doneF id sw tl rfF).1 with
            pc := doneF.length }).2.isDest) = true := by
        show ((sweep doneF false).2 &&
          !({ (pass1Step fuel doneF id sw tl rfF).1 with
            pc := doneF.length }).isDest) = true
        rw [hdestF]
        exact hc
      have hs1 : (sweep (doneF ++
          [(id, { (pass1Step fuel doneF id sw tl rfF).1 with
            pc := doneF.length })]) false).1 =
          (sweep doneF false).1 := by
        rw [hsn]
        show (if ((sweep doneF false).2 &&
            !(id, { (pass1Step fuel doneF id sw tl rfF).1 with
              pc := doneF.length }).2.isDest) = true
          then (sweep doneF false).1
          else (sweep doneF false).1 ++
            [(id, { (pass1Step fuel doneF id sw tl rfF).1 with
              pc := doneF.length })]) = _
        rw [if_pos hcond]
      have hs2 : (sweep (doneF ++
          [(id, { (pass1Step fuel doneF id sw tl rfF).1 with
            pc := doneF.length })]) false).2 =
          (sweep doneF false).2 := by
        rw [hsn]
        show (if ((sweep doneF false).2 &&
            !(id, { (pass1Step fuel doneF id sw tl rfF).1 with
              pc := doneF.length }).2.isDest) = true
          then (sweep doneF false).2
          else ((id, { (pass1Step fuel doneF id sw tl rfF).1 with
            pc := doneF.length }).2.word.kind == .branchW)) = _
        rw [if_pos hcond]
      rw [← hs2]
      refine ih doneT _ _ rfT _ ?_ hnd2 hWFm2
      rw [hs1]
      exact h1
    · rw [pass1Go_cons_keep true fuel doneT id sw tl
        ((sweep doneF false).2) rfT
        (by simp only [Bool.true_and]; exact Bool.eq_false_iff.mpr hc)]
      have hagree : (pass1Step fuel doneT id sw tl rfT).1 =
          (pass1Step fuel doneF id sw tl rfF).1 :=
        pass1Step_agree fuel doneT doneF id sw tl rfT rfF h1 hnd hWFm
      have hcond : ¬ (((sweep doneF false).2 &&
          !(id, { (pass1Step fuel doneF id sw tl rfF).1 with
            pc := doneF.length }).2.isDest) = true) := by
        show ¬ (((sweep doneF false).2 &&
          !({ (pass1Step fuel doneF id sw tl rfF).1 with
            pc := doneF.length }).isDest) = true)
        rw [hdestF]
        exact hc
      have hs1 : (sweep (doneF ++
          [(id, { (pass1Step fuel doneF id sw tl rfF).1 with
            pc := doneF.length })]) false).1 =
          (sweep doneF false).1 ++
            [(id, { (pass1Step fuel doneF id sw tl rfF).1 with
              pc := doneF.length })] := by
        rw [hsn]
        show (if ((sweep doneF false).2 &&
            !(id, { (pass1Step fuel doneF id sw tl rfF).1 with
              pc := doneF.length }).2.isDest) = true
          then (sweep doneF false).1
          else (sweep doneF false).1 ++
            [(id, { (pass1Step fuel doneF id sw tl rfF).1 with
              pc := doneF.length })]) = _
        rw [if_neg hcond]
      have hs2 : (sweep (doneF ++
          [(id, { (pass1Step fuel doneF id sw tl rfF).1 with
            pc := doneF.length })]) false).2 =
          ((id, { (pass1Step fuel doneF id sw tl rfF).1 with
            pc := doneF.length }).2.word.kind == .branchW) := by
        rw [hsn]
        show (if ((sweep doneF false).2 &&
            !(id, { (pass1Step fuel doneF id sw tl rfF).1 with
              pc := doneF.length }).2.isDest) = true
          then (sweep doneF false).2
          else ((id, { (pass1Step fuel doneF id sw tl rfF).1 with
            pc := doneF.length }).2.word.kind == .branchW)) = _
        rw [if_neg hcond]
      have hstrip1 : stripSW ({ (pass1Step fuel doneT id sw tl rfT).1
          with pc := doneT.length }) =
          stripSW ({ (pass1Step fuel doneF id sw tl rfF).1 with
            pc := doneF.length }) := by
        rw [hagree]
        rfl
      have h1n : (doneT ++
          [(id, { (pass1Step fuel doneT id sw tl rfT).1 with
            pc := doneT.length })]).map stripE =
          (sweep (doneF ++
            [(id, { (pass1Step fuel doneF id sw tl rfF).1 with
              pc := doneF.length })]) false).1.map stripE := by
        rw [hs1, List.map_append, List.map_append, h1]
        simp only [List.map_cons, List.map_nil]
        show _ ++ [stripE (id, _)] = _ ++ [stripE (id, _)]
        rw [show stripE (id, { (pass1Step fuel doneT id sw tl rfT).1
            with pc := doneT.length }) =
          stripE (id, { (pass1Step fuel doneF id sw tl rfF).1 with
            pc := doneF.length }) from congrArg (fun s => (id, s)) hstrip1]
      have hab : (({ (pass1Step fuel doneT id sw tl rfT).1 with
          pc := doneT.length }).word.kind == .branchW) =
          (sweep (doneF ++
            [(id, { (pass1Step fuel doneF id sw tl rfF).1 with
              pc := doneF.length })]) false).2 := by
        rw [hs2, hagree]
      rw [hab]
      exact ih (doneT ++
          [(id, { (pass1Step fuel doneT id sw tl rfT).1 with
            pc := doneT.length })]) _ _
          (pass1Step fuel doneT id sw tl rfT).2 _ h1n hnd2 hWFm2

/-- One-step unfolding of the interpreter at positive fuel. -/
lemma exec_succ_eq (f : Nat) (prog : List Instr) (pc : Nat)
    (st : List V) :
    exec (f + 1) prog pc st =
      match prog.get? pc with
      | none => none
      | some i =>
        match i with
        | .ret => some st
        | .prim p =>
          match primStep p st with
          | some st2 => exec f prog (pc + 1) st2
          | none => none
        | .int n => exec f prog (pc + 1) ((n : Int) :: st)
        | .lit v => exec f prog (pc + 1) (v :: st)
        | .branch off =>
          let t : Int := (pc : Int) + off + 1
          if t < 0 then none else exec f prog t.toNat st
        | .zbranch off =>
          match st with
          | [] => none
          | v :: r =>
            if truthy v then exec f prog (pc + 1) r
            else
              let t : Int := (pc : Int) + off + 1
              if t < 0 then none else exec f prog t.toNat r
        | .call body =>
          match exec f body 0 st with
          | some st2 => exec f prog (pc + 1) st2
          | none => none
        | .recurse _ => none
        | .getarg _ => none
        | .setarg _ => none
        | .locals _ => none
        | .dropargs _ _ => none := rfl

/-- Running past the end of the program. -/
lemma exec_oob (f : Nat) (prog : List Instr) (pc : Nat) (st : List V)
    (h : prog.get? pc = none) : exec (f + 1) prog pc st = none := by
  rw [exec_succ_eq, h]

/-- Running `_RETURN`. -/
lemma exec_at_ret (f : Nat) (prog : List Instr) (pc : Nat) (st : List V)
    (h : prog.get? pc = some .ret) : exec (f + 1) prog pc st = some st := by
  rw [exec_succ_eq, h]

/-- Running a parameterless native word that succeeds. -/
lemma exec_at_prim (f : Nat) (prog : List Instr) (pc : Nat)
    (st st2 : List V) (p : Prim) (h : prog.get? pc = some (.prim p))
    (hp : primStep p st = some st2) :
    exec (f + 1) prog pc st = exec f prog (pc + 1) st2 := by
  rw [exec_succ_eq, h]
  show (match primStep p st with
    | some st3 => exec f prog (pc + 1) st3
    | none => none) = _
  rw [hp]

/-- Running a parameterless native word on a bad stack. -/
lemma exec_at_prim_none (f : Nat) (prog : List Instr) (pc : Nat)
    (st : List V) (p : Prim) (h : prog.get? pc = some (.prim p))
    (hp : primStep p st = none) :
    exec (f + 1) prog pc st = none := by
  rw [exec_succ_eq, h]
  show (match primStep p st with
    | some st3 => exec f prog (pc + 1) st3
    | none => none) = _
  rw [hp]

/-- Running `_INT`. -/
lemma exec_at_int (f : Nat) (prog : List Instr) (pc : Nat) (st : List V)
    (n : Int) (h : prog.get? pc = some (.int n)) :
    exec (f + 1) prog pc st = exec f prog (pc + 1) (n :: st) := by
  rw [exec_succ_eq, h]

/-- Running `_LITERAL`. -/
lemma exec_at_lit (f : Nat) (prog : List Instr) (pc : Nat) (st : List V)
    (v : V) (h : prog.get? pc = some (.lit v)) :
    exec (f + 1) prog pc st = exec f prog (pc + 1) (v :: st) := by
  rw [exec_succ_eq, h]

/-- Running `_BRANCH`. -/
lemma exec_at_branch (f : Nat) (prog : List Instr) (pc : Nat)
    (st : List V) (o : Int) (h : prog.get? pc = some (.branch o)) :
    exec (f + 1) prog pc st =
      if ((pc : Int) + o + 1) < 0 then none
      else exec f prog ((pc : Int) + o + 1).toNat st := by
  rw [exec_succ_eq, h]

/-- Running `_ZBRANCH` on an empty stack. -/
lemma exec_at_zbranch_nil (f : Nat) (prog : List Instr) (pc : Nat)
    (o : Int) (h : prog.get? pc = some (.zbranch o)) :
    exec (f + 1) prog pc [] = none := by
  rw [exec_succ_eq, h]

/-- Running `_ZBRANCH` on a truthy top: pop and fall through. -/
lemma exec_at_zbranch_t (f : Nat) (prog : List Instr) (pc : Nat)
    (v : V) (r : List V) (o : Int)
    (h : prog.get? pc = some (.zbranch o)) (hv : truthy v = true) :
    exec (f + 1) prog pc (v :: r) = exec f prog (pc + 1) r := by
  rw [exec_succ_eq, h]
  show (if truthy v = true then exec f prog (pc + 1) r
    else if ((pc : Int) + o + 1) < 0 then none
      else exec f prog ((pc : Int) + o + 1).toNat r) = _
  rw [if_pos hv]

/-- Running `_ZBRANCH` on a falsy top: pop and jump. -/
lemma exec_at_zbranch_f (f : Nat) (prog : List Instr) (pc : Nat)
    (v : V) (r : List V) (o : Int)
    (h : prog.get? pc = some (.zbranch o)) (hv : ¬ (truthy v = true)) :
    exec (f + 1) prog pc (v :: r) =
      if ((pc : Int) + o + 1) < 0 then none
      else exec f prog ((pc : Int) + o + 1).toNat r := by
  rw [exec_succ_eq, h]
  show (if truthy v = true then exec f prog (pc + 1) r
    else if ((pc : Int) + o + 1) < 0 then none
      else exec f prog ((pc : Int) + o + 1).toNat r) = _
  rw [if_neg hv]

/-- Running a call of an interpreted word that returns. -/
lemma exec_at_call (f : Nat) (prog : List Instr) (pc : Nat)
    (st st2 : List V) (body : List Instr)
    (h : prog.get? pc = some (.call body))
    (hb : exec f body 0 st = some st2) :
    exec (f + 1) prog pc st = exec f prog (pc + 1) st2 := by
  rw [exec_succ_eq, h]
  show (match exec f body 0 st with
    | some st3 => exec f prog (pc + 1) st3
    | none => none) = _
  rw [hb]

/-- Running a call of an interpreted word that dies. -/
lemma exec_at_call_none (f : Nat) (prog : List Instr) (pc : Nat)
    (st : List V) (body : List Instr)
    (h : prog.get? pc = some (.call body))
    (hb : exec f body 0 st = none) :
    exec (f + 1) prog pc st = none := by
  rw [exec_succ_eq, h]
  show (match exec f body 0 st with
    | some st3 => exec f prog (pc + 1) st3
    | none => none) = _
  rw [hb]

/-- Running `_RECURSE` (not modelled at runtime). -/
lemma exec_at_recurse (f : Nat) (prog : List Instr) (pc : Nat)
    (st : List V) (o : Int) (h : prog.get? pc = some (.recurse o)) :
    exec (f + 1) prog pc st = none := by
  rw [exec_succ_eq, h]

/-- Running `_GETARG` (not modelled at runtime). -/
lemma exec_at_getarg (f : Nat) (prog : List Instr) (pc : Nat)
    (st : List V) (o : Int) (h : prog.get? pc = some (.getarg o)) :
    exec (f + 1) prog pc st = none := by
  rw [exec_succ_eq, h]

/-- Running `_SETARG` (not modelled at runtime). -/
lemma exec_at_setarg (f : Nat) (prog : List Instr) (pc : Nat)
    (st : List V) (o : Int) (h : prog.get? pc = some (.setarg o)) :
    exec (f + 1) prog pc st = none := by
  rw [exec_succ_eq, h]

/-- Running `_LOCALS` (not modelled at runtime). -/
lemma exec_at_locals (f : Nat) (prog : List Instr) (pc : Nat)
    (st : List V) (o : Int) (h : prog.get? pc = some (.locals o)) :
    exec (f + 1) prog pc st = none := by
  rw [exec_succ_eq, h]

/-- Running `_DROPARGS` (not modelled at runtime). -/
lemma exec_at_dropargs (f : Nat) (prog : List Instr) (pc : Nat)
    (st : List V) (a b : Nat) (h : prog.get? pc = some (.dropargs a b)) :
    exec (f + 1) prog pc st = none := by
  rw [exec_succ_eq, h]

/-- Assembly only reads the word and the parameter, which pc-stripping
keeps. -/
lemma toInstr_strip (a b : SW) (h : stripSW a = stripSW b) :
    toInstr a = toInstr b := by
  have hw : a.word = b.word := stripSW_word a b h
  have hp : a.param = b.param := stripSW_param a b h
  unfold toInstr
  rw [hw, hp]

/-- Only a `_BRANCH` entry assembles to a `_BRANCH` instruction. -/
lemma toInstr_eq_branch (sw : SW) (o : Int) (h : toInstr sw = .branch o) :
    sw.word.kind = .branchW := by
  cases hk : sw.word.kind <;> cases hp : sw.param <;>
    simp [toInstr, hk, hp] at h ⊢

/-- Only a `_ZBRANCH` entry assembles to a `_ZBRANCH` instruction. -/
lemma toInstr_eq_zbranch (sw : SW) (o : Int)
    (h : toInstr sw = .zbranch o) : sw.word.kind = .zbranchW := by
  cases hk : sw.word.kind <;> cases hp : sw.param <;>
    simp [toInstr, hk, hp] at h ⊢

/-- A `_BRANCH` entry with an offset parameter assembles to that
branch. -/
lemma toInstr_branch_off (sw : SW) (n : Int)
    (hk : sw.word.kind = .branchW) (hp : sw.param = .off n) :
    toInstr sw = .branch n := by
  simp [toInstr, hk, hp]

/-- A `_ZBRANCH` entry with an offset parameter assembles to that
conditional branch. -/
lemma toInstr_zbranch_off (sw : SW) (n : Int)
    (hk : sw.word.kind = .zbranchW) (hp : sw.param = .off n) :
    toInstr sw = .zbranch n := by
  simp [toInstr, hk, hp]

/-- A `_RECURSE` entry assembles to a `_RECURSE` instruction. -/
lemma toInstr_recurse_any (sw : SW) (hk : sw.word.kind = .recurseW) :
    ∃ o, toInstr sw = .recurse o := by
  cases hp : sw.param
  case off n => exact ⟨n, by simp [toInstr, hk, hp]⟩
  all_goals exact ⟨0, by simp [toInstr, hk, hp]⟩

/-- Entries without a recorded target are assembled as they stand. -/
lemma fillBranch_of_none (all : List (Nat × SW)) (sw : SW)
    (hbt : sw.branchTo = none) : fillBranch all sw = sw := by
  unfold fillBranch
  rw [hbt]

/-- Entries with a recorded target get the relative offset
`target.pc - pc - 1` filled in. -/
lemma fillBranch_of_some (all : List (Nat × SW)) (sw : SW) (d : Nat)
    (hbt : sw.branchTo = some d) :
    fillBranch all sw =
      { sw with
          param := Param.off
            ((((lookupSW all d).map (fun t => (t.pc : Int))).getD 0) -
              (sw.pc : Int) - 1) } := by
  unfold fillBranch
  rw [hbt]

/-- One emitted instruction, by position. -/
lemma emit_get? (all : List (Nat × SW)) (k : Nat) :
    (emitInstructions all).get? k =
      (all.get? k).map (fun x => toInstr (fillBranch all x.2)) := by
  unfold emitInstructions
  rw [List.get?_map]

/-- Positionwise consequence of a `map stripE` equation. -/
lemma strip_pointwise (l1 l2 : List (Nat × SW))
    (h : l1.map stripE = l2.map stripE) (k : Nat) :
    (l1.get? k).map stripE = (l2.get? k).map stripE := by
  rw [← List.get?_map, ← List.get?_map, h]

/-- Key lists of the production pass's output are a sublist of the
reference output's, hence `Nodup`. -/
lemma ltKeys_nodup (LT LF : List (Nat × SW))
    (hA1 : LT.map stripE = ((sweep LF false).1).map stripE)
    (hnd : (LF.map (fun p : Nat × SW => p.1)).Nodup) :
    (LT.map (fun p : Nat × SW => p.1)).Nodup := by
  have hk : LT.map (fun p : Nat × SW => p.1) =
      (sweep LF false).1.map (fun p : Nat × SW => p.1) := by
    rw [keys_stripE LT, hA1, ← keys_stripE]
  rw [hk]
  exact List.Nodup.sublist ((sweep_sublist LF false).map _) hnd

/-- Positions with the same key in a keywise-`Nodup` list coincide. -/
lemma nodup_key_pos (LF : List (Nat × SW))
    (hnd : (LF.map (fun p : Nat × SW => p.1)).Nodup)
    (i j : Nat) (a b : Nat × SW) (hi : LF.get? i = some a)
    (hj : LF.get? j = some b) (hk : a.1 = b.1) : i = j := by
  have hki : (LF.map (fun p : Nat × SW => p.1)).get? i = some a.1 := by
    rw [List.get?_map, hi]
    rfl
  have hkj : (LF.map (fun p : Nat × SW => p.1)).get? j = some b.1 := by
    rw [List.get?_map, hj]
    rfl
  refine List.get?_inj ?_ hnd ?_
  · exact (List.get?_eq_some.mp hki).fst
  · rw [hki, hkj, hk]

/-- Stepping the alignment to the next position (instructions other
than `_BRANCH`): successors are aligned or both programs end. -/
lemma align_next (LT LF : List (Nat × SW))
    (hA1 : LT.map stripE = ((sweep LF false).1).map stripE)
    (hnd : (LF.map (fun p : Nat × SW => p.1)).Nodup)
    (k j : Nat) (x y : Nat × SW)
    (hx : LT.get? k = some x) (hy : LF.get? j = some y)
    (hs : stripE x = stripE y)
    (hkind : x.2.word.kind ≠ .branchW) :
    (∃ x2 y2, LT.get? (k + 1) = some x2 ∧ LF.get? (j + 1) = some y2 ∧
       stripE x2 = stripE y2) ∨
    (LT.get? (k + 1) = none ∧ LF.get? (j + 1) = none) := by
  have hpw := strip_pointwise LT ((sweep LF false).1) hA1 k
  rw [hx] at hpw
  cases hz : (sweep LF false).1.get? k with
  | none => rw [hz] at hpw; cases hpw
  | some z =>
    rw [hz] at hpw
    simp only [Option.map_some', Option.some.injEq] at hpw
    have hzx2 : stripSW z.2 = stripSW x.2 := by
      have := congrArg Prod.snd hpw
      exact this.symm
    have hzkind : z.2.word.kind ≠ .branchW := by
      rw [stripSW_word z.2 x.2 hzx2]
      exact hkind
    obtain ⟨j2, hj2, hsucc⟩ := sweep_align LF false k z hz
    have hkey : z.1 = y.1 := by
      have h1 := congrArg Prod.fst hpw
      have h2 := congrArg Prod.fst hs
      have hzx : z.1 = x.1 := h1.symm
      have hxy : x.1 = y.1 := h2
      rw [hzx, hxy]
    have hjj : j2 = j := nodup_key_pos LF hnd j2 j z y hj2 hy hkey
    subst hjj
    rcases hsucc hzkind with ⟨w, hw1, hw2⟩ | ⟨hw1, hw2⟩
    · left
      have hpw2 := strip_pointwise LT ((sweep LF false).1) hA1 (k + 1)
      rw [hw1] at hpw2
      cases hx2 : LT.get? (k + 1) with
      | none => rw [hx2] at hpw2; cases hpw2
      | some x2 =>
        rw [hx2] at hpw2
        simp only [Option.map_some', Option.some.injEq] at hpw2
        exact ⟨x2, w, rfl, hw2, hpw2⟩
    · right
      have hpw2 := strip_pointwise LT ((sweep LF false).1) hA1 (k + 1)
      rw [hw1] at hpw2
      refine ⟨?_, hw2⟩
      cases hx2 : LT.get? (k + 1) with
      | none => rfl
      | some x2 => rw [hx2] at hpw2; cases hpw2

/-- A marked id names aligned positions in both emitted programs, with
the recorded pcs equal to the positions. -/
lemma align_at_key (LT LF : List (Nat × SW))
    (hA1 : LT.map stripE = ((sweep LF false).1).map stripE)
    (hnd : (LF.map (fun p : Nat × SW => p.1)).Nodup)
    (hpcT : ∀ k x, LT.get? k = some x → x.2.pc = k)
    (hpcF : ∀ k x, LF.get? k = some x → x.2.pc = k)
    (d : Nat) (hmk : markedIn LF d) :
    ∃ kd jd xd yd, LT.get? kd = some xd ∧ LF.get? jd = some yd ∧
      stripE xd = stripE yd ∧
      lookupSW LT d = some xd.2 ∧ lookupSW LF d = some yd.2 ∧
      xd.2.pc = kd ∧ yd.2.pc = jd := by
  obtain ⟨y, hy, hyd, hydest⟩ := hmk
  have hye : y = (d, y.2) := by rw [← hyd]
  obtain ⟨jd, hjd⟩ := List.mem_iff_get?.mp hy
  have hlkF : lookupSW LF d = some y.2 :=
    lookupSW_of_mem_nodup LF d y.2 hnd (hye ▸ hy)
  have hkept : y ∈ (sweep LF false).1 :=
    sweep_keeps_marked LF false y hy hydest
  obtain ⟨kd, hkd⟩ := List.mem_iff_get?.mp hkept
  have hpw := strip_pointwise LT ((sweep LF false).1) hA1 kd
  rw [hkd] at hpw
  cases hxT : LT.get? kd with
  | none => rw [hxT] at hpw; cases hpw
  | some x =>
    rw [hxT] at hpw
    simp only [Option.map_some', Option.some.injEq] at hpw
    have hxkey : x.1 = d := by
      have h1 := congrArg Prod.fst hpw
      rw [← hyd]
      exact h1
    have hxe : x = (d, x.2) := by rw [← hxkey]
    have hndT := ltKeys_nodup LT LF hA1 hnd
    have hlkT : lookupSW LT d = some x.2 :=
      lookupSW_of_mem_nodup LT d x.2 hndT (hxe ▸ List.get?_mem hxT)
    exact ⟨kd, jd, x, y, hxT, hjd, hpw, hlkT, hlkF,
      hpcT kd x hxT, hpcF jd y hjd⟩

/-- Step-for-step simulation: the two emitted programs, run from
aligned positions on the same stack, produce the same outcome at equal
fuel.  Erased instructions sit between an unconditional branch and the
next branch destination, where control never goes. -/
lemma exec_sim (LT LF : List (Nat × SW))
    (hA1 : LT.map stripE = ((sweep LF false).1).map stripE)
    (hnd : (LF.map (fun p : Nat × SW => p.1)).Nodup)
    (hpcT : ∀ k x, LT.get? k = some x → x.2.pc = k)
    (hpcF : ∀ k x, LF.get? k = some x → x.2.pc = k)
    (hWFm : WFm LF)
    (hok : ∀ x ∈ LF, entryKinded x ∧ entryTargeted x) :
    ∀ (n : Nat) (k j : Nat) (st : List V),
      ((∃ x y, LT.get? k = some x ∧ LF.get? j = some y ∧
          stripE x = stripE y) ∨
        (LT.get? k = none ∧ LF.get? j = none)) →
      exec n (emitInstructions LT) k st =
        exec n (emitInstructions LF) j st := by
  intro n
  induction n with
  | zero => intro k j st _; rfl
  | succ n2 ih =>
    intro k j st halign
    rcases halign with ⟨x, y, hx, hy, hs⟩ | ⟨hx, hy⟩
    · have hyll : y ∈ LF := List.get?_mem hy
      have hokY := hok y hyll
      have hs2p : (stripE x).2 = (stripE y).2 := congrArg Prod.snd hs
      have hs2 : stripSW x.2 = stripSW y.2 := hs2p
      have hword : x.2.word = y.2.word := stripSW_word _ _ hs2
      have hiT0 : (emitInstructions LT).get? k =
          some (toInstr (fillBranch LT x.2)) := by
        rw [emit_get?, hx]
        rfl
      have hiF0 : (emitInstructions LF).get? j =
          some (toInstr (fillBranch LF y.2)) := by
        rw [emit_get?, hy]
        rfl
      cases hbtY : y.2.branchTo with
      | none =>
        have hbtX : x.2.branchTo = none := by
          rw [stripSW_branchTo _ _ hs2]
          exact hbtY
        rw [fillBranch_of_none LT x.2 hbtX] at hiT0
        rw [fillBranch_of_none LF y.2 hbtY,
          (toInstr_strip x.2 y.2 hs2).symm] at hiF0
        have hkindne : x.2.word.kind ≠ .branchW := by
          intro hbr
          have hky : y.2.word.kind = .branchW := by
            rw [← hword]
            exact hbr
          exact (hokY.2 (Or.inl hky)) hbtY
        have hkindnz : x.2.word.kind ≠ .zbranchW := by
          intro hbr
          have hky : y.2.word.kind = .zbranchW := by
            rw [← hword]
            exact hbr
          exact (hokY.2 (Or.inr (Or.inl hky))) hbtY
        cases hi : toInstr x.2 with
        | ret =>
          rw [hi] at hiT0 hiF0
          rw [exec_at_ret n2 _ k st hiT0, exec_at_ret n2 _ j st hiF0]
        | prim p =>
          rw [hi] at hiT0 hiF0
          cases hps : primStep p st with
          | none =>
            rw [exec_at_prim_none n2 _ k st p hiT0 hps,
              exec_at_prim_none n2 _ j st p hiF0 hps]
          | some st2 =>
            rw [exec_at_prim n2 _ k st st2 p hiT0 hps,
              exec_at_prim n2 _ j st st2 p hiF0 hps]
            exact ih (k + 1) (j + 1) st2
              (align_next LT LF hA1 hnd k j x y hx hy hs hkindne)
        | int n3 =>
          rw [hi] at hiT0 hiF0
          rw [exec_at_int n2 _ k st n3 hiT0, exec_at_int n2 _ j st n3 hiF0]
          exact ih (k + 1) (j + 1) (n3 :: st)
            (align_next LT LF hA1 hnd k j x y hx hy hs hkindne)
        | lit v =>
          rw [hi] at hiT0 hiF0
          rw [exec_at_lit n2 _ k st v hiT0, exec_at_lit n2 _ j st v hiF0]
          exact ih (k + 1) (j + 1) (v :: st)
            (align_next LT LF hA1 hnd k j x y hx hy hs hkindne)
        | branch o =>
          exact absurd (toInstr_eq_branch x.2 o hi) hkindne
        | zbranch o =>
          exact absurd (toInstr_eq_zbranch x.2 o hi) hkindnz
        | recurse o =>
          rw [hi] at hiT0 hiF0
          rw [exec_at_recurse n2 _ k st o hiT0,
            exec_at_recurse n2 _ j st o hiF0]
        | getarg o =>
          rw [hi] at hiT0 hiF0
          rw [exec_at_getarg n2 _ k st o hiT0,
            exec_at_getarg n2 _ j st o hiF0]
        | setarg o =>
          rw [hi] at hiT0 hiF0
          rw [exec_at_setarg n2 _ k st o hiT0,
            exec_at_setarg n2 _ j st o hiF0]
        | locals o =>
          rw [hi] at hiT0 hiF0
          rw [exec_at_locals n2 _ k st o hiT0,
            exec_at_locals n2 _ j st o hiF0]
        | dropargs a b =>
          rw [hi] at hiT0 hiF0
          rw [exec_at_dropargs n2 _ k st a b hiT0,
            exec_at_dropargs n2 _ j st a b hiF0]
        | call body =>
          rw [hi] at hiT0 hiF0
          cases hcb : exec n2 body 0 st with
          | none =>
            rw [exec_at_call_none n2 _ k st body hiT0 hcb,
              exec_at_call_none n2 _ j st body hiF0 hcb]
          | some st2 =>
            rw [exec_at_call n2 _ k st st2 body hiT0 hcb,
              exec_at_call n2 _ j st st2 body hiF0 hcb]
            exact ih (k + 1) (j + 1) st2
              (align_next LT LF hA1 hnd k j x y hx hy hs hkindne)
      | some d =>
        have hbtX : x.2.branchTo = some d := by
          rw [stripSW_branchTo _ _ hs2]
          exact hbtY
        have hmk : markedIn LF d := hWFm y hyll d hbtY
        obtain ⟨kd, jd, xd, yd, hxd, hyd2, hsd, hlkT, hlkF, hpcxd, hpcyd⟩ :=
          align_at_key LT LF hA1 hnd hpcT hpcF d hmk
        have hfT : fillBranch LT x.2 =
            { x.2 with param := Param.off ((kd : Int) - (k : Int) - 1) } := by
          rw [fillBranch_of_some LT x.2 d hbtX, hlkT]
          simp only [Option.map_some', Option.getD_some]
          rw [hpcxd, hpcT k x hx]
        have hfF : fillBranch LF y.2 =
            { y.2 with param := Param.off ((jd : Int) - (j : Int) - 1) } := by
          rw [fillBranch_of_some LF y.2 d hbtY, hlkF]
          simp only [Option.map_some', Option.getD_some]
          rw [hpcyd, hpcF j y hy]
        rcases hokY.1 d hbtY with hbr | hzbr | hrec
        · -- `_BRANCH`
          have hiT : (emitInstructions LT).get? k =
              some (Instr.branch ((kd : Int) - (k : Int) - 1)) := by
            rw [hiT0]
            refine congrArg some (toInstr_branch_off _ _ ?_ ?_)
            · rw [fillBranch_word, hword]
              exact hbr
            · rw [hfT]
          have hiF : (emitInstructions LF).get? j =
              some (Instr.branch ((jd : Int) - (j : Int) - 1)) := by
            rw [hiF0]
            refine congrArg some (toInstr_branch_off _ _ ?_ ?_)
            · rw [fillBranch_word]
              exact hbr
            · rw [hfF]
          rw [exec_at_branch n2 _ k st _ hiT,
            exec_at_branch n2 _ j st _ hiF]
          have harT : (k : Int) + ((kd : Int) - (k : Int) - 1) + 1 =
              (kd : Int) := by ring
          have harF : (j : Int) + ((jd : Int) - (j : Int) - 1) + 1 =
              (jd : Int) := by ring
          rw [harT, harF, if_neg (not_lt.mpr (Int.natCast_nonneg kd)),
            if_neg (not_lt.mpr (Int.natCast_nonneg jd))]
          have htn : ((kd : Int)).toNat = kd := Int.toNat_natCast kd
          have hjn : ((jd : Int)).toNat = jd := Int.toNat_natCast jd
          rw [htn, hjn]
          exact ih kd jd st (Or.inl ⟨xd, yd, hxd, hyd2, hsd⟩)
        · -- `_ZBRANCH`
          have hkindne : x.2.word.kind ≠ .branchW := by
            rw [hword, hzbr]
            intro hcontra
            cases hcontra
          have hiT : (emitInstructions LT).get? k =
              some (Instr.zbranch ((kd : Int) - (k : Int) - 1)) := by
            rw [hiT0]
            refine congrArg some (toInstr_zbranch_off _ _ ?_ ?_)
            · rw [fillBranch_word, hword]
              exact hzbr
            · rw [hfT]
          have hiF : (emitInstructions LF).get? j =
              some (Instr.zbranch ((jd : Int) - (j : Int) - 1)) := by
            rw [hiF0]
            refine congrArg some (toInstr_zbranch_off _ _ ?_ ?_)
            · rw [fillBranch_word]
              exact hzbr
            · rw [hfF]
          cases st with
          | nil =>
            rw [exec_at_zbranch_nil n2 _ k _ hiT,
              exec_at_zbranch_nil n2 _ j _ hiF]
          | cons v r =>
            by_cases hv : truthy v = true
            · rw [exec_at_zbranch_t n2 _ k v r _ hiT hv,
                exec_at_zbranch_t n2 _ j v r _ hiF hv]
              exact ih (k + 1) (j + 1) r
                (align_next LT LF hA1 hnd k j x y hx hy hs hkindne)
            · rw [exec_at_zbranch_f n2 _ k v r _ hiT hv,
                exec_at_zbranch_f n2 _ j v r _ hiF hv]
              have harT : (k : Int) + ((kd : Int) - (k : Int) - 1) + 1 =
                  (kd : Int) := by ring
              have harF : (j : Int) + ((jd : Int) - (j : Int) - 1) + 1 =
                  (jd : Int) := by ring
              rw [harT, harF, if_neg (not_lt.mpr (Int.natCast_nonneg kd)),
                if_neg (not_lt.mpr (Int.natCast_nonneg jd))]
              have htn : ((kd : Int)).toNat = kd := Int.toNat_natCast kd
              have hjn : ((jd : Int)).toNat = jd := Int.toNat_natCast jd
              rw [htn, hjn]
              exact ih kd jd r (Or.inl ⟨xd, yd, hxd, hyd2, hsd⟩)
        · -- `_RECURSE` surviving to emission: both runs die
          obtain ⟨o1, ho1⟩ := toInstr_recurse_any (fillBranch LT x.2)
            (by rw [fillBranch_word, hword]; exact hrec)
          obtain ⟨o2, ho2⟩ := toInstr_recurse_any (fillBranch LF y.2)
            (by rw [fillBranch_word]; exact hrec)
          rw [ho1] at hiT0
          rw [ho2] at hiF0
          rw [exec_at_recurse n2 _ k st o1 hiT0,
            exec_at_recurse n2 _ j st o2 hiF0]
    · have hTo : (emitInstructions LT).get? k = none := by
        rw [emit_get?, hx]
        rfl
      have hFo : (emitInstructions LF).get? j = none := by
        rw [emit_get?, hy]
        rfl
      rw [exec_oob n2 _ k st hTo, exec_oob n2 _ j st hFo]

/-- Executable form of `markedIn`. -/
def markedInB (l : List (Nat × SW)) (d : Nat) : Bool :=
  l.any (fun y => y.1 == d && y.2.isDest)

/-- Executable form of `kindIn3`. -/
def kindIn3B (k : WTag) : Bool :=
  (k == .branchW) || (k == .zbranchW) || (k == .recurseW)

/-- Executable well-formedness of a word list as pass input: every
recorded branch target names a marked entry and sits on a branch-like
kind, and every branch-like kind records a target.  `add`,
`fixBranch`/`addBranchBackTo` and `addRecurse` establish exactly
this. -/
def wfPassB (l : List (Nat × SW)) : Bool :=
  l.all (fun x =>
    (match x.2.branchTo with
     | some d => markedInB l d && kindIn3B x.2.word.kind
     | none => true) &&
    (!(kindIn3B x.2.word.kind) || !(x.2.branchTo == none)))

/-- `markedInB` decides `markedIn`. -/
lemma markedInB_iff (l : List (Nat × SW)) (d : Nat) :
    markedInB l d = true ↔ markedIn l d := by
  unfold markedInB markedIn
  rw [List.any_eq_true]
  constructor
  · rintro ⟨y, hy, hp⟩
    rw [Bool.and_eq_true] at hp
    exact ⟨y, hy, by simpa using hp.1, hp.2⟩
  · rintro ⟨y, hy, h1, h2⟩
    exact ⟨y, hy, by rw [Bool.and_eq_true]; exact ⟨by simpa using h1, h2⟩⟩

/-- `kindIn3B` decides `kindIn3`. -/
lemma kindIn3B_iff (k : WTag) : kindIn3B k = true ↔ kindIn3 k := by
  unfold kindIn3B kindIn3
  simp [Bool.or_eq_true, or_assoc]

/-- What `wfPassB` guarantees, in the forms the pass analysis uses. -/
lemma wfPassB_holds (l : List (Nat × SW)) (h : wfPassB l = true) :
    WFm l ∧ (∀ x ∈ l, entryKinded x ∧ entryTargeted x) := by
  rw [wfPassB, List.all_eq_true] at h
  constructor
  · intro x hx d hd
    have hx2 := h x hx
    rw [Bool.and_eq_true] at hx2
    have h1 := hx2.1
    rw [hd] at h1
    simp only [Bool.and_eq_true] at h1
    exact (markedInB_iff l d).mp h1.1
  · intro x hx
    have hx2 := h x hx
    rw [Bool.and_eq_true] at hx2
    constructor
    · intro d hd
      have h1 := hx2.1
      rw [hd] at h1
      simp only [Bool.and_eq_true] at h1
      exact (kindIn3B_iff _).mp h1.2
    · intro hk hnone
      have h2 := hx2.2
      rw [Bool.or_eq_true] at h2
      rcases h2 with h2 | h2
      · rw [Bool.not_eq_true'] at h2
        rw [(kindIn3B_iff _).mpr hk] at h2
        cases h2
      · rw [Bool.not_eq_true'] at h2
        rw [hnone] at h2
        simp at h2

/-- With the control stack empty, code generation succeeds and returns
the emission of the pass output. -/
lemma generate_eq_ok (elim : Bool) (c : CState) (hctrl : c.ctrl = []) :
    generateInstructionsWith elim c = .ok
      (emitInstructions (pass1Go elim ((epilogueWords c).length + 2) []
        (epilogueWords c) false false).1,
       (pass1Go elim ((epilogueWords c).length + 2) []
        (epilogueWords c) false false).2) := by
  simp only [generateInstructionsWith, if_neg (not_ne_iff.mpr hctrl)]

/-- C7, amended.  The dead-code pass — dropping every instruction that
follows an unconditional `_BRANCH` and is not marked
`isBranchDestination` — preserves observable behaviour *provided
every recorded branch target is in fact marked* (and entry ids are
distinct; branch targets sit on branch-like entries, which all carry
targets — `wfPassB`): then the word compiled with the pass
(`elim = true`, the production `generateInstructions`) and the word
compiled without it (`elim = false`) yield instruction streams that
run identically — same final stack, or the same failure, on every
input stack at every fuel.  The unamended claim is refuted by
`c7_dead_code_counterexample`: the epilogue's
`_words.back() = {_RETURN}` can strip the mark from a still-targeted
`_RETURN`, and then the pass deletes it and changes behaviour. -/
theorem c7_dead_code_preserves_behavior (c : CState)
    (hctrl : c.ctrl = [])
    (hnd : ((epilogueWords c).map (fun p : Nat × SW => p.1)).Nodup)
    (hwf : wfPassB (epilogueWords c) = true) :
    ∃ pT rT pF rF,
      generateInstructionsWith true c = .ok (pT, rT) ∧
      generateInstructionsWith false c = .ok (pF, rF) ∧
      ∀ n st, exec n pT 0 st = exec n pF 0 st := by
  obtain ⟨hWFm, hok⟩ := wfPassB_holds _ hwf
  refine ⟨_, _, _, _, generate_eq_ok true c hctrl,
    generate_eq_ok false c hctrl, ?_⟩
  intro n st
  have hA1 : ((pass1Go true ((epilogueWords c).length + 2) []
      (epilogueWords c) false false).1).map stripE =
      ((sweep ((pass1Go false ((epilogueWords c).length + 2) []
        (epilogueWords c) false false).1) false).1).map stripE :=
    pass_sync ((epilogueWords c).length + 2) (epilogueWords c) [] []
      false false false rfl hnd hWFm
  have hndF : (((pass1Go false ((epilogueWords c).length + 2) []
      (epilogueWords c) false false).1).map
        (fun p : Nat × SW => p.1)).Nodup := by
    rw [passF_keys ((epilogueWords c).length + 2) (epilogueWords c) []
      false false]
    exact hnd
  have hpcT : ∀ k x, ((pass1Go true ((epilogueWords c).length + 2) []
      (epilogueWords c) false false).1).get? k = some x → x.2.pc = k :=
    pass1Go_pc true ((epilogueWords c).length + 2) (epilogueWords c) []
      false false (fun k x hkx => by cases hkx)
  have hpcF : ∀ k x, ((pass1Go false ((epilogueWords c).length + 2) []
      (epilogueWords c) false false).1).get? k = some x → x.2.pc = k :=
    pass1Go_pc false ((epilogueWords c).length + 2) (epilogueWords c) []
      false false (fun k x hkx => by cases hkx)
  have hinvF := passF_inv ((epilogueWords c).length + 2)
    (epilogueWords c) [] false false hWFm hok
  refine exec_sim _ _ hA1 hndF hpcT hpcF hinvF.1 hinvF.2 n 0 0 st ?_
  rcases sweep_align_zero (pass1Go false ((epilogueWords c).length + 2)
      [] (epilogueWords c) false false).1 with ⟨z, hz1, hz2⟩ | ⟨hz1, hz2⟩
  · left
    have hpw := strip_pointwise _ _ hA1 0
    rw [hz1] at hpw
    cases hx0 : ((pass1Go true ((epilogueWords c).length + 2) []
        (epilogueWords c) false false).1).get? 0 with
    | none => rw [hx0] at hpw; cases hpw
    | some x0 =>
      rw [hx0] at hpw
      simp only [Option.map_some', Option.some.injEq] at hpw
      exact ⟨x0, z, rfl, hz2, hpw⟩
  · right
    have hpw := strip_pointwise _ _ hA1 0
    rw [hz1] at hpw
    refine ⟨?_, hz2⟩
    cases hx0 : ((pass1Go true ((epilogueWords c).length + 2) []
        (epilogueWords c) false false).1).get? 0 with
    | none => rfl
    | some x0 => rw [hx0] at hpw; cases hpw

/-- The compilation unit of `1 BEGIN DUP WHILE 1 - REPEAT`, a
well-typed parser-built word: a loop whose exit (`WHILE`'s `_ZBRANCH`)
jumps past the loop's backward `_BRANCH` to the epilogue `_RETURN`. -/
def c7cex : CState :=
  match parseSource "1 BEGIN DUP WHILE 1 - REPEAT" with
  | .ok c => c
  | .error _ => initCompiler ""

/-- Counterexample to C7 as stated: on `c7cex`, the epilogue's
`_words.back() = {_RETURN}` has reset `isBranchDestination` on the
`_RETURN` the `WHILE`'s `_ZBRANCH` targets, so the dead-code pass
(`elim = true`) deletes it — it follows the loop's unconditional
backward `_BRANCH` — and the `_ZBRANCH`'s target resolves to nothing
at emission (offset falls back to `-pc - 1`, a dangling-iterator read
in the C++).  The compiled word loops forever (`none` at any fuel)
where the word compiled without the pass returns `[0]`: observable
behaviour differs. -/
theorem c7_dead_code_counterexample :
    generateInstructionsWith true c7cex =
      .ok ([.int 1, .prim .dup, .zbranch (-3), .int 1, .prim .minus,
        .branch (-5)], false) ∧
    generateInstructionsWith false c7cex =
      .ok ([.int 1, .prim .dup, .zbranch 3, .int 1, .prim .minus,
        .branch (-5), .ret], false) ∧
    exec 50 [.int 1, .prim .dup, .zbranch (-3), .int 1, .prim .minus,
      .branch (-5)] 0 [] = none ∧
    exec 50 [.int 1, .prim .dup, .zbranch 3, .int 1, .prim .minus,
      .branch (-5), .ret] 0 [] = some [0] :=
  ⟨rfl, rfl, rfl, rfl⟩

/-- A tail-recursive unit with genuine dead code: `DUP; RECURSE` whose
epilogue `_RETURN` is unreachable after the tail-call rewrite. -/
def c7demo : CState := addRecurse (addRef (initCompiler "x") wDUP .pnone).1

/-- Witness for C7 on `c7demo`: the hypotheses hold by computation and
the two compilations succeed with behaviourally equal programs. -/
theorem c7_dead_code_preserves_behavior_witness :
    c7demo.ctrl = [] ∧
    ((epilogueWords c7demo).map (fun p : Nat × SW => p.1)).Nodup ∧
    wfPassB (epilogueWords c7demo) = true ∧
    (∃ pT rT pF rF,
      generateInstructionsWith true c7demo = .ok (pT, rT) ∧
      generateInstructionsWith false c7demo = .ok (pF, rF) ∧
      ∀ n st, exec n pT 0 st = exec n pF 0 st) :=
  ⟨rfl, by decide, by decide,
    c7_dead_code_preserves_behavior c7demo rfl (by decide) (by decide)⟩

/-- Compilation unit consisting of a single `DUP`. -/
def c4demo : CState := (addRef (initCompiler "") wDUP .pnone).1

/-- Witness for the amended C4 on `c4demo`: the compiled stream is
`DUP; RETURN`, which ends with exactly one `_RETURN`. -/
theorem c4_return_amended_witness :
    retExactlyAtEnd [.prim .dup, .ret] = true := by
  have hwne : c4demo.words ≠ [] := by
    rw [show c4demo.words =
      [(0, { mkSW wDUP .pnone with isDest := false }), placeholder 1]
      from rfl]
    exact List.cons_ne_nil _ _
  exact (c4_return_amended.2 c4demo [.prim .dup, .ret] false
    (by decide) rfl).2 hwne (by decide)

end Tails
